import Mathlib

/-!
Shallow embedding of the MembersGame team-generation and payout core
(src: types/golf, utils/handicap, utils/gameGenerator) and proofs of the
specification claims about it.

Modelling conventions:
* JS numbers are modelled as exact rationals (`ℚ`); integer-valued
  quantities (course handicaps, pools, payout amounts) as `ℤ`/`ℕ`.
* `Math.round` is `jsRound`: floor of `q + 1/2` (ties toward `+∞`), the
  ECMAScript behaviour on exactly representable values.
* The ambient `Math.random` stream is an explicit parameter
  `amb : ℕ → ℚ` consumed left to right; the seeded generator is the
  mulberry32 PRNG of the source, modelled exactly on `ℕ mod 2^32`.
* `String.prototype.localeCompare` is modelled as code-point
  lexicographic comparison (`strLE`), a fixed total order as in the
  runtime.
* JS `Array.prototype.sort` (stable since ES2019) is modelled as a
  stable insertion sort `sortByLE` over the comparator's `cmp ≤ 0`
  relation.
* The `throw new Error(...)` in group placement is modelled with
  `Except String`.
-/

namespace MembersGame

/-- The three tee choices of `types/golf.ts`. -/
inductive Tee where
  | white
  | blue
  | red
deriving DecidableEq

/-- Slope ratings by tee.  The source type requires all three numbers, but
`courseHandicapFor` guards with `|| 0`, so a slope may be absent at run
time; we model each as `Option ℚ`. -/
structure CourseSlopesByTee where
  white : Option ℚ
  blue : Option ℚ
  red : Option ℚ
deriving DecidableEq

/-- A roster player (`types/golf.ts`). -/
structure Player where
  id : String
  firstName : String
  lastName : Option String
  handicapIndex : ℚ
  tee : Tee
  linkGroupId : Option String
deriving DecidableEq

/-- A course (`types/golf.ts`); only `slopes` is consumed by the core. -/
structure Course where
  name : String
  par : ℤ
  slopes : CourseSlopesByTee
  players : List Player
deriving DecidableEq

/-- Field lookup `course.slopes[tee]`. -/
def slopeForTee (s : CourseSlopesByTee) : Tee → Option ℚ
  | .white => s.white
  | .blue => s.blue
  | .red => s.red

/-- JS `v || 0` on an optional number: an absent slope becomes `0`; a
present slope of `0` is also `0`, so on present values this is the
identity. -/
def orZero : Option ℚ → ℚ
  | none => 0
  | some v => v

/-- JS `Math.round`: nearest integer, ties toward `+∞`, i.e.
`⌊q + 1/2⌋`. -/
def jsRound (q : ℚ) : ℤ := Int.floor (q + 1/2)

/-- `courseHandicapFor` of `utils/handicap.ts`:
`Math.round(hi * slope / 113)` with `slope = course.slopes[tee] || 0`. -/
def courseHandicapFor (course : Course) (hi : ℚ) (tee : Tee) : ℤ :=
  jsRound (hi * orZero (slopeForTee course.slopes tee) / 113)

/-- A player enriched with a course handicap (`PlayerWithCH`). -/
structure PlayerWithCH extends Player where
  courseHandicap : ℤ
deriving DecidableEq

/-- `computePlayerCH` of `gameGenerator.ts`. -/
def computePlayerCH (course : Course) (p : Player) : PlayerWithCH :=
  ⟨p, courseHandicapFor course p.handicapIndex p.tee⟩

/-- A team of the result (`Team`). -/
structure Team where
  id : ℕ
  players : List PlayerWithCH
  teamHandicap : ℤ
deriving DecidableEq

/-- The result record (`GameResult`); payouts are `(place, amount)`
pairs. -/
structure GameResult where
  course : Course
  teams : List Team
  totalPlayers : ℕ
  prizePool : ℤ
  skinsPool : ℤ
  payouts : List (ℕ × ℤ)
deriving DecidableEq

/-- The settings record (`GameSettings`).  `paidPlaces` and `randomSeed`
are modelled as integers. -/
structure GameSettings where
  entryFeePerPlayer : ℚ
  skinsPoolPerPlayer : Option ℚ
  randomSeed : Option ℤ
  randomizeTeams : Option Bool
  paidPlaces : Option ℤ
deriving DecidableEq

/-- JS truthiness of the optional boolean `settings.randomizeTeams`
(`undefined` and `false` are falsy). -/
def jsTruthy : Option Bool → Bool
  | some b => b
  | none => false

/-! ### The seeded PRNG (mulberry32) and random streams -/

/-- `2^32`, the modulus of all 32-bit coercions in the PRNG. -/
def m32 : ℕ := 2 ^ 32

/-- One output of the mulberry32 generator from the (already advanced)
state `t`, as the exact rational `u / 2^32` the source computes.  JS
`Math.imul` is multiplication mod `2^32`; `x >>> k` on the unsigned
32-bit pattern is division by `2^k`; `^` and `|` are bitwise on the same
pattern. -/
def mulberryOut (t : ℕ) : ℚ :=
  let r1 := ((t ^^^ (t >>> 15)) * (1 ||| t)) % m32
  let r2 := r1 ^^^ ((r1 + ((r1 ^^^ (r1 >>> 7)) * (61 ||| r1)) % m32) % m32)
  ((r2 ^^^ (r2 >>> 14) : ℕ) : ℚ) / 4294967296

/-- The `k`-th draw (0-based) of `rng(seed)`: the closure's state before
draw `k` is `seed >>> 0` plus `k + 1` increments of `0x6D2B79F5`, used
mod `2^32`. -/
def mulberrySeq (seed : ℤ) (k : ℕ) : ℚ :=
  mulberryOut (((seed.emod (2 ^ 32)).toNat + (k + 1) * 0x6D2B79F5) % m32)

/-- A stream of random draws in `[0, 1)`; index `k` is the `k`-th call. -/
def RandSrc : Type := ℕ → ℚ

/-- JS `Math.floor(q)` coerced to an array index (never negative in the
reachable uses, where `q ∈ [0, i+1)`). -/
def jsFloorNat (q : ℚ) : ℕ := (Int.floor q).toNat

/-- The destructuring swap `[arr[i], arr[j]] = [arr[j], arr[i]]`; out of
range indices (unreachable for draws in `[0,1)`) leave the list
unchanged. -/
def swapL {α : Type} (l : List α) (i j : ℕ) : List α :=
  match l[i]?, l[j]? with
  | some a, some b => (l.set i b).set j a
  | _, _ => l

/-- The Fisher-Yates loop body: `i` counts down from `length - 1` to `1`,
each step drawing `s ix` and swapping positions `i` and
`⌊draw * (i+1)⌋`. -/
def fyAux {α : Type} (s : RandSrc) : ℕ → List α → ℕ → List α × ℕ
  | 0, arr, ix => (arr, ix)
  | i + 1, arr, ix =>
    let j := jsFloorNat (s ix * ((i + 1 : ℕ) + 1 : ℚ))
    fyAux s i (swapL arr (i + 1) j) (ix + 1)

/-- An in-place shuffle (`shuffleInPlace` / the inline loops of
`generateGame`): returns the shuffled list and the next unused stream
index. -/
def fisherYates {α : Type} (s : RandSrc) (arr : List α) (ix : ℕ) : List α × ℕ :=
  fyAux s (arr.length - 1) arr ix

/-! ### Stable sorting by a JS comparator -/

/-- Code-point lexicographic comparison of character lists. -/
def charsLE : List Char → List Char → Bool
  | [], _ => true
  | _ :: _, [] => false
  | a :: as, b :: bs => if a < b then true else if b < a then false else charsLE as bs

/-- Model of `a.localeCompare(b) ≤ 0`: lexicographic on code points. -/
def strLE (a b : String) : Bool := charsLE a.data b.data

/-- Insert `a` before the first element `b` with `le a b`; the insertion
step of a stable sort. -/
def insertLE {α : Type} (le : α → α → Bool) (a : α) : List α → List α
  | [] => [a]
  | b :: l => if le a b then a :: b :: l else b :: insertLE le a l

/-- Stable insertion sort by `le` (= "comparator ≤ 0"), modelling the
stable `Array.prototype.sort`. -/
def sortByLE {α : Type} (le : α → α → Bool) : List α → List α
  | [] => []
  | a :: l => insertLE le a (sortByLE le l)

/-! ### Group formation -/

/-- An ephemeral group of linked players. -/
structure Group where
  id : String
  members : List PlayerWithCH
  size : ℕ
  strength : ℚ
deriving DecidableEq

/-- The map key: `p.linkGroupId ?? "single:" + p.id`. -/
def gidOf (p : PlayerWithCH) : String :=
  match p.linkGroupId with
  | some g => g
  | none => "single:" ++ p.id

/-- Append `p` to the entry keyed `gid` of the insertion-ordered map,
creating the entry at the end if absent (JS `Map` iteration order). -/
def addToGroups : List (String × List PlayerWithCH) → String → PlayerWithCH →
    List (String × List PlayerWithCH)
  | [], gid, p => [(gid, [p])]
  | (k, ms) :: rest, gid, p =>
    if k = gid then (k, ms ++ [p]) :: rest else (k, ms) :: addToGroups rest gid p

/-- The `groupsMap` build loop: players grouped by `gidOf` in
first-encounter order, members in roster order. -/
def collectGroups (ps : List PlayerWithCH) : List (String × List PlayerWithCH) :=
  ps.foldl (fun acc p => addToGroups acc (gidOf p) p) []

/-- Sum of the members' course handicaps. -/
def sumCH (ms : List PlayerWithCH) : ℤ := (ms.map (·.courseHandicap)).sum

/-- The chunking loop `for (let i = 0; i < n; i += 4) slice(i, i+4)`. -/
def chunks4 {α : Type} : List α → List (List α)
  | [] => []
  | a :: rest => (a :: rest.take 3) :: chunks4 (rest.drop 3)
termination_by l => l.length
decreasing_by simp only [List.length_drop, List.length_cons]; omega

/-- Map with a running index, as `Array.prototype.forEach`/`map` expose
it. -/
def mapIdxFrom {α β : Type} (f : ℕ → α → β) : ℕ → List α → List β
  | _, [] => []
  | i, a :: as => f i a :: mapIdxFrom f (i + 1) as

/-- Turn one map entry into groups: an oversized entry (more than 4
members) is split into chunks of at most 4 named `id#1, id#2, ...` with
strength the chunk's average course handicap; otherwise one group with
strength `sum / max 1 size`. -/
def mkGroupsOfEntry (e : String × List PlayerWithCH) : List Group :=
  if 4 < e.2.length then
    mapIdxFrom
      (fun idx c => ⟨e.1 ++ "#" ++ toString (idx + 1), c, c.length,
        (sumCH c : ℚ) / (c.length : ℚ)⟩) 0 (chunks4 e.2)
  else
    [⟨e.1, e.2, e.2.length, (sumCH e.2 : ℚ) / (max 1 e.2.length : ℚ)⟩]

/-- Group formation: the enriched roster clustered by link id, oversized
entries chunked. -/
def formGroups (enriched : List PlayerWithCH) : List Group :=
  (collectGroups enriched).flatMap mkGroupsOfEntry

/-! ### Group orderings and the team-size plan -/

/-- The balanced-order comparator as a `cmp ≤ 0` relation: size
descending, then strength ascending, then id. -/
def balancedLE (a b : Group) : Bool :=
  if a.size = b.size then
    if a.strength = b.strength then strLE a.id b.id
    else decide (a.strength < b.strength)
  else decide (b.size < a.size)

/-- The randomized-order comparator (`b.size - a.size ||
a.id.localeCompare(b.id)`) as a `cmp ≤ 0` relation. -/
def randomLE (a b : Group) : Bool :=
  if a.size = b.size then strLE a.id b.id else decide (b.size < a.size)

/-- The final team comparator (member count ascending, then team handicap
ascending) as a `cmp ≤ 0` relation. -/
def teamsLE (a b : Team) : Bool :=
  if a.players.length = b.players.length then decide (a.teamHandicap ≤ b.teamHandicap)
  else decide (a.players.length < b.players.length)

/-- `determineTeamSizes`: the team-size plan for `total` players. -/
def determineTeamSizes (total : ℕ) : List ℕ :=
  if total ≤ 4 then [total]
  else
    let n4 := total / 4
    let rem := total % 4
    if rem = 0 then List.replicate n4 4
    else if rem = 1 then
      if 2 ≤ n4 then List.replicate (n4 - 2) 4 ++ [3, 3, 3]
      else [3, 2]
    else if rem = 2 then
      if 1 ≤ n4 then List.replicate (n4 - 1) 4 ++ [3, 3]
      else [2]
    else List.replicate n4 4 ++ [3]

/-! ### Payout ratios and rounding -/

/-- The `default` branch of `basePayoutRatios`: `count` more places to
fill, `remaining` pool share left, current geometric `share`; every place
but the last takes `max(0.05, share)`, the last takes the remainder. -/
def taper : ℕ → ℚ → ℚ → List ℚ
  | 0, _, _ => []
  | 1, remaining, _ => [remaining]
  | k + 2, remaining, share =>
    let v := max 0.05 share
    v :: taper (k + 1) (remaining - v) (share * 0.7)

/-- `basePayoutRatios`: the ratio schedule for `places` paid places and
`numTeams` teams; `n` is clamped to `[1, numTeams]`, fixed tables up to
5, then the normalized geometric taper. -/
def basePayoutRatios (places : ℤ) (numTeams : ℕ) : List ℚ :=
  let n : ℤ := max 1 (min places (numTeams : ℤ))
  if n = 1 then [1]
  else if n = 2 then [0.6, 0.4]
  else if n = 3 then [0.5, 0.3, 0.2]
  else if n = 4 then [0.4, 0.3, 0.2, 0.1]
  else if n = 5 then [0.35, 0.25, 0.18, 0.12, 0.10]
  else
    let ratios := taper n.toNat 1 0.35
    let s := ratios.sum
    ratios.map (fun r => r / s)

/-- The initial per-place rounding `Math.max(0, Math.round(v / step) *
step)`. -/
def roundEntries (values : List ℚ) (step : ℕ) : List ℤ :=
  values.map (fun v => max 0 (jsRound (v / (step : ℚ)) * (step : ℤ)))

/-- One scan of the adjustment `for` loop: while `diff ≥ step`, add
`dir * step` to each place in order, skipping (for `dir < 0`) a place
that would go negative; returns the new list, the remaining `diff`, and
whether any place was adjusted. -/
def adjustPass (dir : ℤ) (step : ℕ) : List ℤ → ℕ → List ℤ × ℕ × Bool
  | [], diff => ([], diff, false)
  | x :: xs, diff =>
    if step ≤ diff then
      let next := x + dir * (step : ℤ)
      if 0 < dir ∨ (dir < 0 ∧ 0 ≤ next) then
        let r := adjustPass dir step xs (diff - step)
        (next :: r.1, r.2.1, true)
      else
        let r := adjustPass dir step xs diff
        (x :: r.1, r.2.1, r.2.2)
    else (x :: xs, diff, false)

/-- The residual `diff` of a pass never grows. -/
theorem adjustPass_diff_le (dir : ℤ) (step : ℕ) :
    ∀ (l : List ℤ) (diff : ℕ), (adjustPass dir step l diff).2.1 ≤ diff := by
  intro l
  induction l with
  | nil => intro diff; simp [adjustPass]
  | cons x xs ih =>
    intro diff
    simp only [adjustPass]
    split
    · split
      · dsimp only
        have := ih (diff - step); omega
      · dsimp only
        exact ih diff
    · simp

/-- If a pass adjusted some place, it consumed at least one `step` from
`diff`. -/
theorem adjustPass_diff_of_adjusted (dir : ℤ) (step : ℕ) :
    ∀ (l : List ℤ) (diff : ℕ), (adjustPass dir step l diff).2.2 = true →
      (adjustPass dir step l diff).2.1 + step ≤ diff := by
  intro l
  induction l with
  | nil => intro diff h; simp [adjustPass] at h
  | cons x xs ih =>
    intro diff h
    by_cases hstep : step ≤ diff
    · by_cases hguard : 0 < dir ∨ (dir < 0 ∧ 0 ≤ x + dir * (step : ℤ))
      · simp only [adjustPass, if_pos hstep, if_pos hguard]
        have := adjustPass_diff_le dir step xs (diff - step)
        omega
      · simp only [adjustPass, if_pos hstep, if_neg hguard] at h ⊢
        have := ih diff h
        omega
    · simp [adjustPass, if_neg hstep] at h

/-- The `while` loop around the adjustment passes: repeat while
`diff ≥ step`, stopping after a pass that adjusted nothing.  The
`0 < step` guard only totalizes the model; the source calls it with
`step ∈ {10, 5}`. -/
def adjustLoop (dir : ℤ) (step : ℕ) (l : List ℤ) (diff : ℕ) : List ℤ × ℕ :=
  if _h : 0 < step ∧ step ≤ diff then
    if hb : (adjustPass dir step l diff).2.2 = true then
      adjustLoop dir step (adjustPass dir step l diff).1 (adjustPass dir step l diff).2.1
    else ((adjustPass dir step l diff).1, (adjustPass dir step l diff).2.1)
  else (l, diff)
termination_by diff
decreasing_by
  have := adjustPass_diff_of_adjusted dir step l diff hb
  omega

/-- The sequential non-increasing clamp from index 1 on: each value is
lowered to its predecessor's (already clamped) value if it exceeds it. -/
def clampFrom (prev : ℤ) : List ℤ → List ℤ
  | [] => []
  | x :: xs => min x prev :: clampFrom (min x prev) xs

/-- The `enforce non-increasing order` pass of the source. -/
def clampNonInc : List ℤ → List ℤ
  | [] => []
  | x :: xs => x :: clampFrom x xs

/-- The `tryRound(step)` helper: round every value to the nearest
multiple of `step` (floored at 0), distribute the signed difference to
the pool total in steps, clamp to non-increasing order, and return the
list with its sum. -/
def tryRound (values : List ℚ) (total : ℤ) (step : ℕ) : List ℤ × ℤ :=
  let rounded := roundEntries values step
  let diff := total - rounded.sum
  let l := (adjustLoop diff.sign step rounded diff.natAbs).1
  let l2 := clampNonInc l
  (l2, l2.sum)

/-- `roundPayoutsPrefer10Then5`: try steps of 10, then 5; if neither hits
the total, add the whole residual to first place and re-clamp. -/
def roundPayoutsPrefer10Then5 (values : List ℚ) (total : ℤ) : List ℤ :=
  let v10 := tryRound values total 10
  if v10.2 = total then v10.1
  else
    let v5 := tryRound values total 5
    if v5.2 = total then v5.1
    else
      match v5.1 with
      | [] => []
      | x :: xs => clampNonInc ((x + (total - v5.2)) :: xs)

/-! ### Group-to-team assignment -/

/-- The best-fit scan: the first index of maximal remaining capacity that
still fits `gsize` (`rem >= g.size && rem > bestRemain`). -/
def bestFitAux (gsize : ℕ) : List ℕ → ℕ → ℤ → Option ℕ → Option ℕ
  | [], _, _, best => best
  | r :: rest, k, bestRemain, best =>
    if gsize ≤ r ∧ bestRemain < (r : ℤ) then
      bestFitAux gsize rest (k + 1) (r : ℤ) (some k)
    else
      bestFitAux gsize rest (k + 1) bestRemain best

/-- The balanced policy's primary placement scan over `remaining`. -/
def bestFit (remaining : List ℕ) (gsize : ℕ) : Option ℕ :=
  bestFitAux gsize remaining 0 (-1) none

/-- The fallback scan: the first index with enough remaining capacity. -/
def firstFit (gsize : ℕ) : List ℕ → ℕ → Option ℕ
  | [], _ => none
  | r :: rest, k => if gsize ≤ r then some k else firstFit gsize rest (k + 1)

/-- Push a group's members onto team `idx` (in-place append of the
source). -/
def pushMembers (teams : List Team) (idx : ℕ) (g : Group) : List Team :=
  match teams[idx]? with
  | some t => teams.set idx ⟨t.id, t.players ++ g.members, t.teamHandicap⟩
  | none => teams

/-- The placement failure message of the source. -/
def placeErr (gsize : ℕ) : String :=
  "Unable to place group of size " ++ toString (gsize) ++ " within team capacities"

/-- Balanced placement: for each group, best-fit scan, then first-fit
fallback, else the constraint-violation error. -/
def placeBalanced : List Group → List Team → List ℕ → Except String (List Team)
  | [], teams, _ => .ok teams
  | g :: gs, teams, remaining =>
    match (match bestFit remaining g.size with
           | some i => some i
           | none => firstFit g.size remaining 0) with
    | some idx =>
      placeBalanced gs (pushMembers teams idx g)
        (remaining.set idx (remaining.getD idx 0 - g.size))
    | none => .error (placeErr g.size)

/-- The first index in the shuffled `order` whose team still fits
`gsize`. -/
def findOrder (remaining : List ℕ) (gsize : ℕ) : List ℕ → Option ℕ
  | [] => none
  | idx :: rest =>
    if gsize ≤ remaining.getD idx 0 then some idx else findOrder remaining gsize rest

/-- Randomized placement: per group, shuffle the team indices with `s`
(continuing at stream index `ix`), scan that order, then the left-to-right
fallback, else the error. -/
def placeRandom (s : RandSrc) :
    List Group → List Team → List ℕ → ℕ → Except String (List Team)
  | [], teams, _, _ => .ok teams
  | g :: gs, teams, remaining, ix =>
    let sh := fisherYates s (List.range teams.length) ix
    match (match findOrder remaining g.size sh.1 with
           | some i => some i
           | none => firstFit g.size remaining 0) with
    | some idx =>
      placeRandom s gs (pushMembers teams idx g)
        (remaining.set idx (remaining.getD idx 0 - g.size)) sh.2
    | none => .error (placeErr g.size)

/-! ### The full pipeline -/

/-- The group-ordering and placement stage of `generateGame`: choose the
policy from the settings, order the groups, and place them. -/
def placedTeams (st : GameSettings) (amb : RandSrc) (groups : List Group)
    (teamsInit : List Team) (teamSizes : List ℕ) : Except String (List Team) :=
  if jsTruthy st.randomizeTeams then
    match st.randomSeed with
    | some seed =>
      let sortedGroups := sortByLE randomLE (fisherYates (mulberrySeq seed) groups 0).1
      placeRandom (mulberrySeq seed) sortedGroups teamsInit teamSizes 0
    | none =>
      let sh := fisherYates amb groups 0
      let sortedGroups := sortByLE randomLE sh.1
      placeRandom amb sortedGroups teamsInit teamSizes sh.2
  else
    placeBalanced (sortByLE balancedLE groups) teamsInit teamSizes

/-- The post-placement stage of `generateGame`: recompute handicaps,
sort and renumber the teams, and compute the pools and payouts. -/
def finishGame (course : Course) (enriched : List PlayerWithCH) (st : GameSettings)
    (teamsFilled : List Team) : GameResult :=
  let teamsH := teamsFilled.map (fun t => ⟨t.id, t.players, sumCH t.players⟩)
  let sortedTeams :=
    mapIdxFrom (fun idx t => ⟨idx + 1, t.players, t.teamHandicap⟩) 0
      (sortByLE teamsLE teamsH)
  let prizePool := max 0 (jsRound (st.entryFeePerPlayer * (enriched.length : ℚ)))
  let skinsPool := max 0 (jsRound ((st.skinsPoolPerPlayer.getD 0) * (enriched.length : ℚ)))
  let places := max 1 (st.paidPlaces.getD 3)
  let ratios := basePayoutRatios places sortedTeams.length
  let rawAmounts := ratios.map (fun r => r * (prizePool : ℚ))
  let finalAmounts := roundPayoutsPrefer10Then5 rawAmounts prizePool
  let payouts := mapIdxFrom (fun i amt => (i + 1, amt)) 0 finalAmounts
  ⟨course, sortedTeams, enriched.length, prizePool, skinsPool, payouts⟩

/-- `generateGame`: the single-call core.  `amb` is the ambient
`Math.random` stream, consumed only by the randomized policy when no
seed is supplied. -/
def generateGame (course : Course) (players : List Player) (st : GameSettings)
    (amb : RandSrc) : Except String GameResult :=
  let enriched := players.map (computePlayerCH course)
  let teamSizes := determineTeamSizes enriched.length
  let groups := formGroups enriched
  let teamsInit : List Team := mapIdxFrom (fun idx _ => ⟨idx + 1, [], 0⟩) 0 teamSizes
  (placedTeams st amb groups teamsInit teamSizes).map (finishGame course enriched st)

/-! ### Facts about the team-size planner -/

/-- The plan always sums to the number of players. -/
theorem determineTeamSizes_sum (n : ℕ) : (determineTeamSizes n).sum = n := by
  by_cases h4 : n ≤ 4
  · simp [determineTeamSizes, h4]
  · simp only [determineTeamSizes, if_neg h4]
    rcases (by omega : n % 4 = 0 ∨ n % 4 = 1 ∨ n % 4 = 2 ∨ n % 4 = 3) with h | h | h | h
    · simp [h, List.sum_replicate, smul_eq_mul]
      omega
    · by_cases h2 : 2 ≤ n / 4
      · simp [h, h2, List.sum_replicate, smul_eq_mul]
        omega
      · simp [h, h2, List.sum_replicate, smul_eq_mul]
        omega
    · by_cases h1 : 1 ≤ n / 4
      · simp [h, h1, List.sum_replicate, smul_eq_mul]
        omega
      · omega
    · simp [h, List.sum_replicate, smul_eq_mul]
      omega

/-- The plan is never the empty list. -/
theorem determineTeamSizes_ne_nil (n : ℕ) : determineTeamSizes n ≠ [] := by
  by_cases h4 : n ≤ 4
  · simp [determineTeamSizes, h4]
  · simp only [determineTeamSizes, if_neg h4]
    rcases (by omega : n % 4 = 0 ∨ n % 4 = 1 ∨ n % 4 = 2 ∨ n % 4 = 3) with h | h | h | h
    · have : 1 ≤ n / 4 := by omega
      simp [h]
      omega
    · by_cases h2 : 2 ≤ n / 4 <;> simp [h, h2]
    · by_cases h1 : 1 ≤ n / 4 <;> simp [h, h1]
    · simp [h]

/-- Claim C3: for every total `n ≥ 1` the plan sums to `n`, is a single
team of size `n` for `n ≤ 4`, has all elements in `{2,3,4}` for `n ≥ 5`,
never contains 5, matches the documented cases `5 ↦ [3,2]`, `6 ↦ [3,3]`,
`9 ↦ [3,3,3]`, `10 ↦ [4,3,3]`, and contains a 2 only for `n = 2` or
`n = 5`. -/
theorem determineTeamSizes_spec (n : ℕ) (_hn : 1 ≤ n) :
    (determineTeamSizes n).sum = n
    ∧ (n ≤ 4 → determineTeamSizes n = [n])
    ∧ (5 ≤ n → ∀ x ∈ determineTeamSizes n, x = 2 ∨ x = 3 ∨ x = 4)
    ∧ 5 ∉ determineTeamSizes n
    ∧ determineTeamSizes 5 = [3, 2]
    ∧ determineTeamSizes 6 = [3, 3]
    ∧ determineTeamSizes 9 = [3, 3, 3]
    ∧ determineTeamSizes 10 = [4, 3, 3]
    ∧ (2 ∈ determineTeamSizes n → n = 2 ∨ n = 5) := by
  have hmem : 5 ≤ n → ∀ x ∈ determineTeamSizes n, x = 2 ∨ x = 3 ∨ x = 4 := by
    intro h5 x hx
    simp only [determineTeamSizes, if_neg (by omega : ¬ n ≤ 4)] at hx
    rcases (by omega : n % 4 = 0 ∨ n % 4 = 1 ∨ n % 4 = 2 ∨ n % 4 = 3) with h | h | h | h
    · simp [h] at hx
      rcases hx with ⟨-, hx⟩
      omega
    · by_cases h2 : 2 ≤ n / 4 <;> simp [h, h2] at hx <;> rcases hx with hx | hx <;> omega
    · by_cases h1 : 1 ≤ n / 4
      · simp [h, h1] at hx
        rcases hx with hx | hx
        · omega
        · omega
      · omega
    · simp [h] at hx
      rcases hx with hx | hx
      · rcases hx with ⟨-, hx⟩; omega
      · omega
  have htwo : 2 ∈ determineTeamSizes n → n = 2 ∨ n = 5 := by
    intro h2in
    by_cases h4 : n ≤ 4
    · simp [determineTeamSizes, h4] at h2in
      omega
    · simp only [determineTeamSizes, if_neg h4] at h2in
      rcases (by omega : n % 4 = 0 ∨ n % 4 = 1 ∨ n % 4 = 2 ∨ n % 4 = 3) with h | h | h | h
      · simp [h] at h2in
      · by_cases h2 : 2 ≤ n / 4 <;> simp [h, h2] at h2in
        omega
      · by_cases h1 : 1 ≤ n / 4
        · simp [h, h1] at h2in
        · omega
      · simp [h] at h2in
  refine ⟨determineTeamSizes_sum n, ?_, hmem, ?_, by decide, by decide, by decide, by decide, htwo⟩
  · intro h4
    simp [determineTeamSizes, h4]
  · intro h5in
    by_cases h4 : n ≤ 4
    · simp [determineTeamSizes, h4] at h5in
      omega
    · have := hmem (by omega) 5 h5in
      omega

/-- Witness for C3 at `n = 9`. -/
theorem determineTeamSizes_spec_witness :
    1 ≤ 9
    ∧ ((determineTeamSizes 9).sum = 9
      ∧ (9 ≤ 4 → determineTeamSizes 9 = [9])
      ∧ (5 ≤ 9 → ∀ x ∈ determineTeamSizes 9, x = 2 ∨ x = 3 ∨ x = 4)
      ∧ 5 ∉ determineTeamSizes 9
      ∧ determineTeamSizes 5 = [3, 2]
      ∧ determineTeamSizes 6 = [3, 3]
      ∧ determineTeamSizes 9 = [3, 3, 3]
      ∧ determineTeamSizes 10 = [4, 3, 3]
      ∧ (2 ∈ determineTeamSizes 9 → 9 = 2 ∨ 9 = 5)) :=
  ⟨by decide, determineTeamSizes_spec 9 (by decide)⟩

/-! ### A concrete two-player scenario used by several witnesses -/

/-- The adjustment loop is the identity when the residual is already
below `step`. -/
theorem adjustLoop_stop (dir : ℤ) (step : ℕ) (l : List ℤ) (diff : ℕ)
    (h : ¬ (0 < step ∧ step ≤ diff)) : adjustLoop dir step l diff = (l, diff) := by
  rw [adjustLoop]
  simp [h]

/-! ### A concrete two-player scenario used by several witnesses -/

/-- A concrete course: white slope 120. -/
def sCourse : Course := ⟨"Sunny", 72, ⟨some 120, some 125, some 118⟩, []⟩

/-- Player `a` of the concrete roster (handicap index 0). -/
def sPa : Player := ⟨"a", "Ann", none, 0, Tee.white, none⟩

/-- Player `b` of the concrete roster (handicap index 0). -/
def sPb : Player := ⟨"b", "Bob", none, 0, Tee.white, none⟩

/-- The two-player roster. -/
def sPlayers : List Player := [sPa, sPb]

/-- Settings: entry fee 10, everything else unset (balanced policy). -/
def sSt : GameSettings := ⟨10, none, none, none, none⟩

/-- The enriched records of the two players (course handicap 0). -/
def sEa : PlayerWithCH := ⟨sPa, 0⟩

/-- The enriched record of player `b`. -/
def sEb : PlayerWithCH := ⟨sPb, 0⟩

/-- The expected result of the two-player run. -/
def sResult : GameResult :=
  ⟨sCourse, [⟨1, [sEa, sEb], 0⟩], 2, 20, 0, [(1, 20)]⟩

/-- Group of player a. -/
def sGa : Group := ⟨"single:a", [sEa], 1, 0⟩
/-- Group of player b. -/
def sGb : Group := ⟨"single:b", [sEb], 1, 0⟩

theorem sEnr : sPlayers.map (computePlayerCH sCourse) = [sEa, sEb] := by
  norm_num [sPlayers, sPa, sPb, computePlayerCH, sEa, sEb, courseHandicapFor,
    slopeForTee, sCourse, orZero, jsRound]

theorem sGroups : formGroups [sEa, sEb] = [sGa, sGb] := by
  have h1 : ("single:" ++ "a" : String) = "single:a" := rfl
  have h2 : ("single:" ++ "b" : String) = "single:b" := rfl
  have h3 : (("single:a" : String) = "single:b") = False := by
    simp only [eq_iff_iff, iff_false]
    decide
  norm_num [formGroups, collectGroups, addToGroups, gidOf, mkGroupsOfEntry,
    sumCH, sEa, sEb, sPa, sPb, sGa, sGb, h1, h2, h3]

theorem sBLE : balancedLE sGa sGb = true := by decide

theorem sSorted : sortByLE balancedLE [sGa, sGb] = [sGa, sGb] := by
  simp only [sortByLE, insertLE, sBLE, if_true]

theorem sPlaced : placeBalanced [sGa, sGb] [⟨1, [], 0⟩] [2] = .ok [⟨1, [sEa, sEb], 0⟩] := by
  norm_num [placeBalanced, bestFit, bestFitAux, firstFit, pushMembers, sGa, sGb]

theorem sRun : generateGame sCourse sPlayers sSt (fun _ => 0) = .ok sResult := by
  simp only [generateGame, sEnr, List.length_cons, List.length_nil, Nat.reduceAdd]
  rw [show determineTeamSizes 2 = [2] from rfl]
  simp only [placedTeams, mapIdxFrom, Nat.reduceAdd, jsTruthy, sSt, Bool.false_eq_true,
    if_false]
  rw [sGroups, sSorted, sPlaced]
  norm_num [finishGame, Except.map, sumCH, sEa, sEb, sortByLE, insertLE, teamsLE,
    mapIdxFrom, Option.getD, jsRound, basePayoutRatios, roundPayoutsPrefer10Then5,
    tryRound, roundEntries, adjustLoop_stop, clampNonInc, clampFrom, sResult]

/-! ### The empty roster -/

/-- With only one team, the ratio schedule is `[1]` whatever `paidPlaces`
was. -/
theorem basePayoutRatios_one (p : ℤ) : basePayoutRatios p 1 = [1] := by
  unfold basePayoutRatios
  have h : max 1 (min p ((1 : ℕ) : ℤ)) = 1 := by
    simp only [Nat.cast_one]
    omega
  simp [h]

/-- An empty roster never errors: the plan is `[0]`, so the result has a
single empty team, zero pools, and a single zero payout. -/
theorem emptyRun (course : Course) (st : GameSettings) (amb : RandSrc) :
    generateGame course [] st amb
      = .ok ⟨course, [⟨1, [], 0⟩], 0, 0, 0, [(1, 0)]⟩ := by
  have h1 : determineTeamSizes 0 = [0] := rfl
  cases hT : jsTruthy st.randomizeTeams
  · simp only [generateGame, placedTeams, List.map_nil, List.length_nil, h1, hT,
      Bool.false_eq_true, if_false, formGroups, collectGroups, List.foldl_nil,
      List.flatMap_nil, sortByLE, mapIdxFrom, Nat.reduceAdd, placeBalanced]
    norm_num [finishGame, Except.map, sumCH, sortByLE, insertLE, mapIdxFrom, jsRound,
      basePayoutRatios_one, roundPayoutsPrefer10Then5, tryRound, roundEntries,
      adjustLoop_stop, clampNonInc, clampFrom]
  · cases hS : st.randomSeed
    all_goals
      simp only [generateGame, placedTeams, List.map_nil, List.length_nil, h1, hT,
        eq_self_iff_true, if_true, formGroups, collectGroups, List.foldl_nil,
        List.flatMap_nil, hS, fisherYates, Nat.reduceSub, fyAux, sortByLE,
        mapIdxFrom, Nat.reduceAdd, placeRandom]
    all_goals
      norm_num [finishGame, Except.map, sumCH, sortByLE, insertLE, mapIdxFrom, jsRound,
        basePayoutRatios_one, roundPayoutsPrefer10Then5, tryRound, roundEntries,
        adjustLoop_stop, clampNonInc, clampFrom]

/-- Claim C6 (amended): an empty roster does not error and yields
prize pool 0 and skins pool 0 — but one empty team (with one zero
payout), not zero teams. -/
theorem generateGame_empty_roster (course : Course) (st : GameSettings) (amb : RandSrc) :
    generateGame course [] st amb
      = .ok ⟨course, [⟨1, [], 0⟩], 0, 0, 0, [(1, 0)]⟩ :=
  emptyRun course st amb

/-- Claim C6, counterexample: the empty-roster result has one team, not
zero teams. -/
theorem generateGame_empty_roster_cex :
    (generateGame sCourse [] sSt (fun _ => 0)).map (fun r => r.teams.length) = .ok 1
    ∧ (generateGame sCourse [] sSt (fun _ => 0)).map (fun r => r.teams.length) ≠ .ok 0 := by
  rw [emptyRun]
  exact ⟨rfl, by simp [Except.map]⟩

/-! ### The handicap rounding direction -/

/-- Rounding half away from zero, as the specification describes it: a
quotient of exactly `-x.5` rounds to `-(x+1)`. -/
def roundHalfAwayFromZero (q : ℚ) : ℤ :=
  if 0 ≤ q then Int.floor (q + 1/2) else -Int.floor (-q + 1/2)

/-- A course whose white slope is exactly 113. -/
def c5Course : Course := ⟨"Flat", 70, ⟨some 113, none, none⟩, []⟩

/-- Claim C5, counterexample: at handicap index `-1/2` and slope 113 the
quotient is exactly `-1/2`; the code (JS `Math.round`) gives 0, while
round-half-away-from-zero gives `-1`. -/
theorem courseHandicapFor_rounding_cex :
    courseHandicapFor c5Course (-1/2) Tee.white = 0
    ∧ roundHalfAwayFromZero
        ((-1/2 : ℚ) * orZero (slopeForTee c5Course.slopes Tee.white) / 113) = -1
    ∧ courseHandicapFor c5Course (-1/2) Tee.white
        ≠ roundHalfAwayFromZero
            ((-1/2 : ℚ) * orZero (slopeForTee c5Course.slopes Tee.white) / 113) := by
  refine ⟨?_, ?_, ?_⟩ <;>
    norm_num [courseHandicapFor, jsRound, roundHalfAwayFromZero, c5Course,
      slopeForTee, orZero]

/-- Claim C5 (amended): the enriched course handicap is
`⌊hi * slope / 113 + 1/2⌋` — JS `Math.round`, ties toward `+∞`, so a
quotient of exactly `-x.5` rounds to `-x`, not `-(x+1)` — and an unset
(or zero) slope yields course handicap 0. -/
theorem computePlayerCH_round (course : Course) (p : Player) :
    (computePlayerCH course p).courseHandicap
      = Int.floor (p.handicapIndex * orZero (slopeForTee course.slopes p.tee) / 113 + 1/2)
    ∧ (slopeForTee course.slopes p.tee = none ∨ slopeForTee course.slopes p.tee = some 0 →
        (computePlayerCH course p).courseHandicap = 0) := by
  constructor
  · rfl
  · intro h
    have hz : orZero (slopeForTee course.slopes p.tee) = 0 := by
      rcases h with h | h <;> simp [h, orZero]
    simp only [computePlayerCH, courseHandicapFor, hz, mul_zero, zero_div, jsRound]
    norm_num

/-- Witness for the amended C5 at a concrete course with an unset white
slope. -/
theorem computePlayerCH_round_witness :
    ((computePlayerCH (⟨"NoSlope", 70, ⟨none, none, none⟩, []⟩ : Course) sPa).courseHandicap
      = Int.floor (sPa.handicapIndex
          * orZero (slopeForTee (⟨none, none, none⟩ : CourseSlopesByTee) sPa.tee) / 113 + 1/2))
    ∧ (slopeForTee (⟨none, none, none⟩ : CourseSlopesByTee) sPa.tee = none
        ∨ slopeForTee (⟨none, none, none⟩ : CourseSlopesByTee) sPa.tee = some 0)
    ∧ (computePlayerCH (⟨"NoSlope", 70, ⟨none, none, none⟩, []⟩ : Course) sPa).courseHandicap = 0 :=
  ⟨(computePlayerCH_round _ sPa).1, Or.inl rfl,
    (computePlayerCH_round _ sPa).2 (Or.inl rfl)⟩

/-! ### Determinism of the two policies -/

/-- Claim C4: with `randomizeTeams` truthy and a numeric seed supplied,
the result does not depend on the ambient random stream (the PRNG is
freshly instantiated from the seed); with `randomizeTeams` falsy the
result depends neither on the ambient stream nor on the value or
presence of `randomSeed`. -/
theorem generateGame_determinism (course : Course) (players : List Player)
    (st : GameSettings) (amb1 amb2 : RandSrc) :
    (jsTruthy st.randomizeTeams = true → ∀ seed, st.randomSeed = some seed →
      generateGame course players st amb1 = generateGame course players st amb2)
    ∧ (jsTruthy st.randomizeTeams = false → ∀ r : Option ℤ,
      generateGame course players st amb1
        = generateGame course players { st with randomSeed := r } amb2) := by
  constructor
  · intro h1 seed h2
    simp only [generateGame, placedTeams, h1, h2, if_true]
  · intro h1 r
    simp only [generateGame, placedTeams, h1, Bool.false_eq_true, if_false]
    rfl

/-- Witness for C4: a seeded randomized run is unchanged under two
different ambient streams, and a balanced run is unchanged when the seed
field is replaced. -/
theorem generateGame_determinism_witness :
    (jsTruthy (⟨10, none, some 1, some true, none⟩ : GameSettings).randomizeTeams = true)
    ∧ ((⟨10, none, some 1, some true, none⟩ : GameSettings).randomSeed = some 1)
    ∧ generateGame sCourse sPlayers ⟨10, none, some 1, some true, none⟩ (fun _ => 0)
        = generateGame sCourse sPlayers ⟨10, none, some 1, some true, none⟩ (fun _ => 1/2)
    ∧ (jsTruthy sSt.randomizeTeams = false)
    ∧ generateGame sCourse sPlayers sSt (fun _ => 0)
        = generateGame sCourse sPlayers { sSt with randomSeed := some 7 } (fun _ => 1/2) :=
  ⟨rfl, rfl,
    (generateGame_determinism sCourse sPlayers ⟨10, none, some 1, some true, none⟩
      (fun _ => 0) (fun _ => 1/2)).1 rfl 1 rfl,
    rfl,
    (generateGame_determinism sCourse sPlayers sSt
      (fun _ => 0) (fun _ => 1/2)).2 rfl (some 7)⟩

/-! ### Oversized-group chunking -/

/-- The group built from chunk number `idx` (0-based) of an oversized
entry keyed `pre`. -/
def chunkGroup (pre : String) (idx : ℕ) (c : List PlayerWithCH) : Group :=
  ⟨pre ++ "#" ++ toString (idx + 1), c, c.length, (sumCH c : ℚ) / (c.length : ℚ)⟩

/-- On an oversized entry, `mkGroupsOfEntry` is exactly the indexed
chunking. -/
theorem mkGroupsOfEntry_oversized (e : String × List PlayerWithCH)
    (h : 4 < e.2.length) :
    mkGroupsOfEntry e = mapIdxFrom (chunkGroup e.1) 0 (chunks4 e.2) := by
  simp only [mkGroupsOfEntry, if_pos h]
  rfl

/-- The chunks concatenate back to the original list, in order. -/
theorem chunks4_join {α : Type} : ∀ l : List α, (chunks4 l).flatten = l
  | [] => by simp [chunks4]
  | a :: rest => by
    rw [chunks4]
    simp only [List.flatten_cons]
    rw [chunks4_join (rest.drop 3)]
    exact congrArg (a :: ·) (List.take_append_drop 3 rest)
termination_by l => l.length
decreasing_by simp only [List.length_drop, List.length_cons]; omega

/-- There are `⌈n/4⌉` chunks. -/
theorem chunks4_length {α : Type} : ∀ l : List α, (chunks4 l).length = (l.length + 3) / 4
  | [] => by simp [chunks4]
  | a :: rest => by
    rw [chunks4]
    simp only [List.length_cons]
    rw [chunks4_length (rest.drop 3)]
    simp only [List.length_drop]
    omega
termination_by l => l.length
decreasing_by simp only [List.length_drop, List.length_cons]; omega

/-- Every chunk is non-empty with at most 4 members. -/
theorem chunks4_mem {α : Type} : ∀ l : List α, ∀ c ∈ chunks4 l, c ≠ [] ∧ c.length ≤ 4
  | [] => by simp [chunks4]
  | a :: rest => by
    intro c hc
    rw [chunks4] at hc
    rcases List.mem_cons.mp hc with h | h
    · subst h
      refine ⟨by simp, ?_⟩
      simp only [List.length_cons]
      have := List.length_take_le 3 rest
      omega
    · exact chunks4_mem (rest.drop 3) c h
termination_by l => l.length
decreasing_by simp only [List.length_drop, List.length_cons]; omega

/-- Every chunk but the last has exactly 4 members. -/
theorem chunks4_front {α : Type} : ∀ (l : List α) (i : ℕ), i + 1 < (chunks4 l).length →
    ((chunks4 l).map List.length).getD i 0 = 4
  | [], i => by simp [chunks4]
  | a :: rest, i => by
    intro hi
    rw [chunks4] at hi ⊢
    cases i with
    | zero =>
      simp only [List.length_cons] at hi
      have hlen : 1 ≤ (chunks4 (rest.drop 3)).length := by omega
      rw [chunks4_length (rest.drop 3)] at hlen
      simp only [List.length_drop] at hlen
      have h4 : 4 ≤ rest.length := by omega
      simp only [List.map_cons, List.getD_cons_zero, List.length_cons,
        List.length_take]
      omega
    | succ j =>
      simp only [List.map_cons, List.getD_cons_succ]
      exact chunks4_front (rest.drop 3) j (by
        simp only [List.length_cons] at hi
        omega)
termination_by l => l.length
decreasing_by simp only [List.length_drop, List.length_cons]; omega

/-- Indexed mapping preserves length. -/
theorem mapIdxFrom_length {α β : Type} (f : ℕ → α → β) :
    ∀ (k : ℕ) (l : List α), (mapIdxFrom f k l).length = l.length := by
  intro k l
  induction l generalizing k with
  | nil => simp [mapIdxFrom]
  | cons a as ih => simp [mapIdxFrom, ih]

/-- The members of the indexed chunk groups are the chunks themselves. -/
theorem mapIdxFrom_chunkGroup_members (pre : String) :
    ∀ (k : ℕ) (cs : List (List PlayerWithCH)),
      (mapIdxFrom (chunkGroup pre) k cs).map (·.members) = cs := by
  intro k cs
  induction cs generalizing k with
  | nil => simp [mapIdxFrom]
  | cons c cs ih => simp [mapIdxFrom, chunkGroup, ih]

/-- The sizes of the indexed chunk groups are the chunk lengths. -/
theorem mapIdxFrom_chunkGroup_sizes (pre : String) :
    ∀ (k : ℕ) (cs : List (List PlayerWithCH)),
      (mapIdxFrom (chunkGroup pre) k cs).map (·.size) = cs.map List.length := by
  intro k cs
  induction cs generalizing k with
  | nil => simp [mapIdxFrom]
  | cons c cs ih => simp [mapIdxFrom, chunkGroup, ih]

/-- The derived identifiers are `pre#k+1, pre#k+2, ...` in order. -/
theorem mapIdxFrom_chunkGroup_ids (pre : String) :
    ∀ (k : ℕ) (cs : List (List PlayerWithCH)),
      (mapIdxFrom (chunkGroup pre) k cs).map (·.id)
        = (List.range' k cs.length).map (fun i => pre ++ "#" ++ toString (i + 1)) := by
  intro k cs
  induction cs generalizing k with
  | nil => simp [mapIdxFrom]
  | cons c cs ih => simp [mapIdxFrom, chunkGroup, List.range', ih]

/-- Every produced group is a `chunkGroup` of some chunk. -/
theorem mapIdxFrom_chunkGroup_mem (pre : String) :
    ∀ (k : ℕ) (cs : List (List PlayerWithCH)) (g : Group),
      g ∈ mapIdxFrom (chunkGroup pre) k cs → ∃ i c, c ∈ cs ∧ g = chunkGroup pre i c := by
  intro k cs
  induction cs generalizing k with
  | nil => simp [mapIdxFrom]
  | cons c cs ih =>
    intro g hg
    rcases List.mem_cons.mp hg with h | h
    · exact ⟨k, c, List.mem_cons_self c cs, h⟩
    · rcases ih (k + 1) g h with ⟨i, c2, hc2, hgc⟩
      exact ⟨i, c2, List.mem_cons_of_mem c hc2, hgc⟩

/-- Claim C7: an oversized link group (more than 4 members) is
deterministically partitioned into `⌈n/4⌉` chunks of at most 4 members,
in original member order (the chunks concatenate back to the member
list, and every chunk but the last has exactly 4 members); each chunk
becomes a group with derived identifier `id#k` and strength the chunk's
average course handicap; a 5-member group becomes chunks of sizes
`[4, 1]`. -/
theorem oversized_group_chunking (course : Course) (players : List Player)
    (e : String × List PlayerWithCH)
    (_he : e ∈ collectGroups (players.map (computePlayerCH course)))
    (h4 : 4 < e.2.length) :
    (mkGroupsOfEntry e).length = (e.2.length + 3) / 4
    ∧ ((mkGroupsOfEntry e).map (·.members)).flatten = e.2
    ∧ (∀ i, i + 1 < (mkGroupsOfEntry e).length →
        ((mkGroupsOfEntry e).map (·.size)).getD i 0 = 4)
    ∧ (∀ g ∈ mkGroupsOfEntry e, g.members ≠ [] ∧ g.members.length ≤ 4
        ∧ g.size = g.members.length
        ∧ g.strength = (sumCH g.members : ℚ) / (g.members.length : ℚ))
    ∧ (mkGroupsOfEntry e).map (·.id)
        = (List.range' 0 ((mkGroupsOfEntry e).length)).map
            (fun i => e.1 ++ "#" ++ toString (i + 1))
    ∧ (e.2.length = 5 → (mkGroupsOfEntry e).map (·.size) = [4, 1]) := by
  rw [mkGroupsOfEntry_oversized e h4]
  refine ⟨?_, ?_, ?_, ?_, ?_, ?_⟩
  · rw [mapIdxFrom_length, chunks4_length]
  · rw [mapIdxFrom_chunkGroup_members, chunks4_join]
  · intro i hi
    rw [mapIdxFrom_chunkGroup_sizes]
    rw [mapIdxFrom_length] at hi
    exact chunks4_front e.2 i hi
  · intro g hg
    rcases mapIdxFrom_chunkGroup_mem e.1 0 (chunks4 e.2) g hg with ⟨i, c, hc, rfl⟩
    rcases chunks4_mem e.2 c hc with ⟨hne, hle⟩
    exact ⟨hne, hle, rfl, rfl⟩
  · rw [mapIdxFrom_chunkGroup_ids, mapIdxFrom_length]
  · intro h5
    rw [mapIdxFrom_chunkGroup_sizes]
    rcases e with ⟨pre, ms⟩
    rcases ms with _ | ⟨a, _ | ⟨b, _ | ⟨c, _ | ⟨d, _ | ⟨x, _ | ⟨y, tl⟩⟩⟩⟩⟩⟩ <;>
      simp_all [chunks4]

/-- The oversized five-member roster used by the C7 witness. -/
def c7Players : List Player :=
  [⟨"p1", "P", none, 0, Tee.white, some "g"⟩,
   ⟨"p2", "P", none, 0, Tee.white, some "g"⟩,
   ⟨"p3", "P", none, 0, Tee.white, some "g"⟩,
   ⟨"p4", "P", none, 0, Tee.white, some "g"⟩,
   ⟨"p5", "P", none, 0, Tee.white, some "g"⟩]

/-- The single map entry formed from `c7Players`. -/
def c7Entry : String × List PlayerWithCH :=
  ("g", c7Players.map (computePlayerCH sCourse))

/-- Witness for C7 on a 5-member link group: the hypotheses hold and the
group is chunked into sizes `[4, 1]`. -/
theorem oversized_group_chunking_witness :
    (c7Entry ∈ collectGroups (c7Players.map (computePlayerCH sCourse)))
    ∧ 4 < c7Entry.2.length
    ∧ (mkGroupsOfEntry c7Entry).length = 2
    ∧ (mkGroupsOfEntry c7Entry).map (·.size) = [4, 1] := by
  have he : c7Entry ∈ collectGroups (c7Players.map (computePlayerCH sCourse)) := by
    simp [c7Entry, c7Players, collectGroups, addToGroups, gidOf, computePlayerCH]
  have h4 : 4 < c7Entry.2.length := by
    simp [c7Entry, c7Players]
  have h := oversized_group_chunking sCourse c7Players c7Entry he h4
  refine ⟨he, h4, ?_, h.2.2.2.2.2 (by simp [c7Entry, c7Players])⟩
  rw [h.1]
  simp [c7Entry, c7Players]

/-! ### Permutation facts for sorting and shuffling -/

/-- Inserting is a permutation of consing. -/
theorem insertLE_perm {α : Type} (le : α → α → Bool) (a : α) :
    ∀ l : List α, (insertLE le a l).Perm (a :: l) := by
  intro l
  induction l with
  | nil => simp [insertLE]
  | cons b bs ih =>
    simp only [insertLE]
    split
    · exact List.Perm.refl _
    · exact (ih.cons b).trans (List.Perm.swap a b bs)

/-- The stable sort permutes its input. -/
theorem sortByLE_perm {α : Type} (le : α → α → Bool) :
    ∀ l : List α, (sortByLE le l).Perm l := by
  intro l
  induction l with
  | nil => exact List.Perm.refl _
  | cons a as ih => exact (insertLE_perm le a (sortByLE le as)).trans (ih.cons a)

/-- Pulling the `k`-th element to the front while writing `x` in its
place permutes `x :: xs`. -/
theorem head_swap_perm {α : Type} :
    ∀ (xs : List α) (k : ℕ) (hk : k < xs.length) (x : α),
      (xs[k] :: xs.set k x).Perm (x :: xs) := by
  intro xs
  induction xs with
  | nil => intro k hk; simp at hk
  | cons y ys ih =>
    intro k hk x
    cases k with
    | zero => simpa using List.Perm.swap x y ys
    | succ m =>
      have hm : m < ys.length := by simpa using hk
      simp only [List.getElem_cons_succ, List.set_cons_succ]
      exact ((List.Perm.swap y ys[m] (ys.set m x)).trans
        ((ih m hm x).cons y)).trans (List.Perm.swap x y ys)

/-- The two-sided `set` swap permutes the list. -/
theorem set_set_perm {α : Type} :
    ∀ (l : List α) (i j : ℕ) (hi : i < l.length) (hj : j < l.length),
      ((l.set i l[j]).set j l[i]).Perm l := by
  intro l
  induction l with
  | nil => intro i j hi; simp at hi
  | cons x xs ih =>
    intro i j hi hj
    cases i with
    | zero =>
      cases j with
      | zero => simp
      | succ k =>
        simp only [List.getElem_cons_zero, List.getElem_cons_succ,
          List.set_cons_zero, List.set_cons_succ]
        exact head_swap_perm xs k (by simpa using hj) x
    | succ m =>
      cases j with
      | zero =>
        simp only [List.getElem_cons_zero, List.getElem_cons_succ,
          List.set_cons_zero, List.set_cons_succ]
        exact head_swap_perm xs m (by simpa using hi) x
      | succ k =>
        simp only [List.getElem_cons_succ, List.set_cons_succ]
        exact (ih m k (by simpa using hi) (by simpa using hj)).cons x

/-- The JS destructuring swap permutes the list. -/
theorem swapL_perm {α : Type} (l : List α) (i j : ℕ) : (swapL l i j).Perm l := by
  unfold swapL
  split
  · rename_i a b ha hb
    obtain ⟨hi, rfl⟩ := List.getElem?_eq_some_iff.mp ha
    obtain ⟨hj, rfl⟩ := List.getElem?_eq_some_iff.mp hb
    exact set_set_perm l i j hi hj
  · exact List.Perm.refl _

/-- Each Fisher-Yates step permutes the list. -/
theorem fyAux_perm {α : Type} (s : RandSrc) :
    ∀ (n : ℕ) (arr : List α) (ix : ℕ), (fyAux s n arr ix).1.Perm arr := by
  intro n
  induction n with
  | zero => intro arr ix; exact List.Perm.refl _
  | succ m ih =>
    intro arr ix
    exact (ih _ _).trans (swapL_perm arr (m + 1) _)

/-- The shuffle permutes the list. -/
theorem fisherYates_perm {α : Type} (s : RandSrc) (arr : List α) (ix : ℕ) :
    (fisherYates s arr ix).1.Perm arr :=
  fyAux_perm s (arr.length - 1) arr ix

/-- Sorted-ness of the stable sort, given a total and transitive `le`. -/
theorem sortByLE_sorted {α : Type} (le : α → α → Bool)
    (htot : ∀ a b, le a b = true ∨ le b a = true)
    (htrans : ∀ a b c, le a b = true → le b c = true → le a c = true) :
    ∀ l : List α, (sortByLE le l).Pairwise (fun a b => le a b = true) := by
  have hins : ∀ (a : α) (l : List α), l.Pairwise (fun a b => le a b = true) →
      (insertLE le a l).Pairwise (fun a b => le a b = true) := by
    intro a l
    induction l with
    | nil => intro _; simp [insertLE]
    | cons b bs ih =>
      intro hp
      rcases List.pairwise_cons.mp hp with ⟨hb, hbs⟩
      simp only [insertLE]
      split
      · rename_i hab
        refine List.pairwise_cons.mpr ⟨?_, hp⟩
        intro c hc
        rcases List.mem_cons.mp hc with rfl | hc
        · exact hab
        · exact htrans a b c hab (hb c hc)
      · rename_i hab
        have hba : le b a = true := by
          rcases htot a b with h | h
          · exact absurd h hab
          · exact h
        refine List.pairwise_cons.mpr ⟨?_, ih hbs⟩
        intro c hc
        have := (insertLE_perm le a bs).mem_iff.mp hc
        rcases List.mem_cons.mp this with rfl | hc2
        · exact hba
        · exact hb c hc2
  intro l
  induction l with
  | nil => simp [sortByLE]
  | cons a as ih => exact hins a (sortByLE le as) ih

/-- The stable sort preserves length. -/
theorem sortByLE_length {α : Type} (le : α → α → Bool) (l : List α) :
    (sortByLE le l).length = l.length :=
  (sortByLE_perm le l).length_eq

/-! ### Payout lengths -/

/-- An adjustment pass preserves the number of places. -/
theorem adjustPass_length (dir : ℤ) (step : ℕ) :
    ∀ (l : List ℤ) (diff : ℕ), (adjustPass dir step l diff).1.length = l.length := by
  intro l
  induction l with
  | nil => intro diff; simp [adjustPass]
  | cons x xs ih =>
    intro diff
    simp only [adjustPass]
    split
    · split <;> simp [ih]
    · simp

/-- The adjustment loop preserves the number of places. -/
theorem adjustLoop_length (dir : ℤ) (step : ℕ) :
    ∀ (diff : ℕ) (l : List ℤ), (adjustLoop dir step l diff).1.length = l.length := by
  intro diff
  induction diff using Nat.strong_induction_on with
  | _ diff ih =>
    intro l
    rw [adjustLoop]
    split
    · rename_i h
      split
      · rename_i hb
        have hlt : (adjustPass dir step l diff).2.1 < diff := by
          have := adjustPass_diff_of_adjusted dir step l diff hb
          omega
        rw [ih _ hlt, adjustPass_length]
      · exact adjustPass_length dir step l diff
    · rfl

/-- The clamp-from pass preserves length. -/
theorem clampFrom_length (prev : ℤ) :
    ∀ l : List ℤ, (clampFrom prev l).length = l.length := by
  intro l
  induction l generalizing prev with
  | nil => simp [clampFrom]
  | cons x xs ih => simp [clampFrom, ih]

/-- The non-increasing clamp preserves length. -/
theorem clampNonInc_length : ∀ l : List ℤ, (clampNonInc l).length = l.length
  | [] => rfl
  | x :: xs => by simp [clampNonInc, clampFrom_length]

/-- A rounding attempt returns one amount per place. -/
theorem tryRound_length (values : List ℚ) (total : ℤ) (step : ℕ) :
    (tryRound values total step).1.length = values.length := by
  unfold tryRound
  simp only [clampNonInc_length, adjustLoop_length, roundEntries, List.length_map]

/-- The rounding scheme returns one amount per place. -/
theorem roundPayoutsPrefer10Then5_length (values : List ℚ) (total : ℤ) :
    (roundPayoutsPrefer10Then5 values total).length = values.length := by
  simp only [roundPayoutsPrefer10Then5]
  split
  · exact tryRound_length values total 10
  · split
    · exact tryRound_length values total 5
    · split
      · rename_i hv
        have := tryRound_length values total 5
        rw [hv] at this
        simp only [List.length_nil] at this ⊢
        omega
      · rename_i x xs hv
        have := tryRound_length values total 5
        rw [hv] at this
        rw [clampNonInc_length]
        simpa using this

/-- The geometric taper emits exactly `k` ratios. -/
theorem taper_length : ∀ (k : ℕ) (rem share : ℚ), (taper k rem share).length = k
  | 0, _, _ => rfl
  | 1, _, _ => rfl
  | k + 2, rem, share => by
    simp only [taper, List.length_cons, taper_length (k + 1)]

/-- The ratio schedule has `clamp(places, 1, numTeams)` entries. -/
theorem basePayoutRatios_length (p : ℤ) (k : ℕ) :
    (basePayoutRatios p k).length = (max 1 (min p (k : ℤ))).toNat := by
  simp only [basePayoutRatios]
  have h1 : 1 ≤ max 1 (min p (k : ℤ)) := le_max_left 1 _
  split_ifs with e1 e2 e3 e4 e5 <;>
    simp only [List.length_cons, List.length_nil, List.length_map, taper_length] <;>
    omega

/-- The places of the payout pairs count up from `k + 1`. -/
theorem mapIdxFrom_fst_places :
    ∀ (k : ℕ) (l : List ℤ),
      (mapIdxFrom (fun i amt => (i + 1, amt)) k l).map (·.1)
        = List.range' (k + 1) l.length := by
  intro k l
  induction l generalizing k with
  | nil => simp [mapIdxFrom]
  | cons a as ih => simp [mapIdxFrom, List.range', ih]

/-! ### Non-negativity of the rounded payouts -/

/-- Initial rounded entries are non-negative. -/
theorem roundEntries_nonneg (values : List ℚ) (step : ℕ) :
    ∀ x ∈ roundEntries values step, 0 ≤ x := by
  intro x hx
  rcases List.mem_map.mp hx with ⟨v, -, rfl⟩
  exact le_max_left 0 _

/-- Initial rounded entries are multiples of the step. -/
theorem roundEntries_dvd (values : List ℚ) (step : ℕ) :
    ∀ x ∈ roundEntries values step, (step : ℤ) ∣ x := by
  intro x hx
  rcases List.mem_map.mp hx with ⟨v, -, rfl⟩
  rcases max_cases (0 : ℤ) (jsRound (v / (step : ℚ)) * (step : ℤ)) with ⟨h, -⟩ | ⟨h, -⟩ <;>
    rw [h]
  · exact dvd_zero _
  · exact Dvd.intro_left _ rfl

/-- A pass preserves non-negativity of the places. -/
theorem adjustPass_nonneg (dir : ℤ) (step : ℕ) :
    ∀ (l : List ℤ) (diff : ℕ), (∀ x ∈ l, 0 ≤ x) →
      ∀ x ∈ (adjustPass dir step l diff).1, 0 ≤ x := by
  intro l
  induction l with
  | nil => intro diff h; simp [adjustPass]
  | cons a as ih =>
    intro diff h x hx
    have ha : 0 ≤ a := h a (List.mem_cons_self a as)
    have has : ∀ y ∈ as, 0 ≤ y := fun y hy => h y (List.mem_cons_of_mem a hy)
    simp only [adjustPass] at hx
    split at hx
    · split at hx <;> rename_i hg
      · rcases List.mem_cons.mp hx with rfl | hx2
        · rcases hg with hg | ⟨-, hg⟩
          · have : (0 : ℤ) ≤ dir * step := by positivity
            omega
          · exact hg
        · exact ih _ has x hx2
      · rcases List.mem_cons.mp hx with rfl | hx2
        · exact ha
        · exact ih _ has x hx2
    · exact h x hx

/-- A pass preserves divisibility by the step. -/
theorem adjustPass_dvd (dir : ℤ) (step : ℕ) :
    ∀ (l : List ℤ) (diff : ℕ), (∀ x ∈ l, (step : ℤ) ∣ x) →
      ∀ x ∈ (adjustPass dir step l diff).1, (step : ℤ) ∣ x := by
  intro l
  induction l with
  | nil => intro diff h; simp [adjustPass]
  | cons a as ih =>
    intro diff h x hx
    have ha : (step : ℤ) ∣ a := h a (List.mem_cons_self a as)
    have has : ∀ y ∈ as, (step : ℤ) ∣ y := fun y hy => h y (List.mem_cons_of_mem a hy)
    simp only [adjustPass] at hx
    split at hx
    · split at hx
      · rcases List.mem_cons.mp hx with rfl | hx2
        · exact dvd_add ha (Dvd.dvd.mul_left dvd_rfl dir)
        · exact ih _ has x hx2
      · rcases List.mem_cons.mp hx with rfl | hx2
        · exact ha
        · exact ih _ has x hx2
    · exact h x hx

/-- The sum moved by a pass is `dir` times the consumed difference. -/
theorem adjustPass_sum (dir : ℤ) (step : ℕ) :
    ∀ (l : List ℤ) (diff : ℕ),
      (adjustPass dir step l diff).1.sum
        = l.sum + dir * ((diff : ℤ) - ((adjustPass dir step l diff).2.1 : ℤ)) := by
  intro l
  induction l with
  | nil => intro diff; simp [adjustPass]
  | cons a as ih =>
    intro diff
    simp only [adjustPass]
    split
    · rename_i hstep
      split
      · simp only [List.sum_cons]
        rw [ih (diff - step)]
        have := adjustPass_diff_le dir step as (diff - step)
        have hc : ((diff - step : ℕ) : ℤ) = (diff : ℤ) - (step : ℤ) := by
          omega
        rw [hc]
        ring
      · simp only [List.sum_cons]
        rw [ih diff]
        ring
    · simp

/-- An unadjusted pass changes nothing. -/
theorem adjustPass_unadjusted (dir : ℤ) (step : ℕ) :
    ∀ (l : List ℤ) (diff : ℕ), (adjustPass dir step l diff).2.2 = false →
      adjustPass dir step l diff = (l, diff, false) := by
  intro l
  induction l with
  | nil => intro diff _; simp [adjustPass]
  | cons a as ih =>
    intro diff h
    simp only [adjustPass] at h ⊢
    by_cases hstep : step ≤ diff
    · rw [if_pos hstep] at h ⊢
      split at h <;> rename_i hg
      · simp at h
      · rw [if_neg hg]
        dsimp only at h
        rw [ih diff h]
    · rw [if_neg hstep]

/-- If a pass with `dir = -1` adjusted nothing although the difference
still exceeded the step, every (non-negative, step-divisible) place is
zero. -/
theorem adjustPass_stuck (step : ℕ) :
    ∀ (l : List ℤ) (diff : ℕ), (adjustPass (-1) step l diff).2.2 = false →
      step ≤ diff → ∀ x ∈ l, 0 ≤ x → (step : ℤ) ∣ x → x = 0 := by
  intro l
  induction l with
  | nil => intro diff _ _ x hx; simp at hx
  | cons a as ih =>
    intro diff h hd x hx hx0 hxd
    simp only [adjustPass, if_pos hd] at h
    split at h <;> rename_i hg
    · simp at h
    · simp only at h
      rcases List.mem_cons.mp hx with rfl | hx2
      · push_neg at hg
        have hxs : x + (-1) * (step : ℤ) < 0 := hg.2 (by norm_num)
        rcases eq_or_lt_of_le hx0 with h0 | h0
        · exact h0.symm
        · have hsx : (step : ℤ) ≤ x := Int.le_of_dvd h0 hxd
          omega
      · exact ih diff h hd x hx2 hx0 hxd

/-- The loop preserves non-negativity of the places. -/
theorem adjustLoop_nonneg (dir : ℤ) (step : ℕ) :
    ∀ (diff : ℕ) (l : List ℤ), (∀ x ∈ l, 0 ≤ x) →
      ∀ x ∈ (adjustLoop dir step l diff).1, 0 ≤ x := by
  intro diff
  induction diff using Nat.strong_induction_on with
  | _ diff ih =>
    intro l hl
    rw [adjustLoop]
    split
    · split
      · rename_i h hb
        have hlt : (adjustPass dir step l diff).2.1 < diff := by
          have := adjustPass_diff_of_adjusted dir step l diff hb
          omega
        exact ih _ hlt _ (adjustPass_nonneg dir step l diff hl)
      · exact adjustPass_nonneg dir step l diff hl
    · exact hl

/-- The loop preserves divisibility by the step. -/
theorem adjustLoop_dvd (dir : ℤ) (step : ℕ) :
    ∀ (diff : ℕ) (l : List ℤ), (∀ x ∈ l, (step : ℤ) ∣ x) →
      ∀ x ∈ (adjustLoop dir step l diff).1, (step : ℤ) ∣ x := by
  intro diff
  induction diff using Nat.strong_induction_on with
  | _ diff ih =>
    intro l hl
    rw [adjustLoop]
    split
    · split
      · rename_i h hb
        have hlt : (adjustPass dir step l diff).2.1 < diff := by
          have := adjustPass_diff_of_adjusted dir step l diff hb
          omega
        exact ih _ hlt _ (adjustPass_dvd dir step l diff hl)
      · exact adjustPass_dvd dir step l diff hl
    · exact hl

/-- The loop's residual never grows. -/
theorem adjustLoop_diff_le (dir : ℤ) (step : ℕ) :
    ∀ (diff : ℕ) (l : List ℤ), (adjustLoop dir step l diff).2 ≤ diff := by
  intro diff
  induction diff using Nat.strong_induction_on with
  | _ diff ih =>
    intro l
    rw [adjustLoop]
    split
    · split
      · rename_i h hb
        have hlt : (adjustPass dir step l diff).2.1 < diff := by
          have := adjustPass_diff_of_adjusted dir step l diff hb
          omega
        exact le_trans (ih _ hlt _) (le_of_lt hlt)
      · exact adjustPass_diff_le dir step l diff
    · exact le_refl diff

/-- The sum moved by the whole loop is `dir` times the total consumed
difference. -/
theorem adjustLoop_sum (dir : ℤ) (step : ℕ) :
    ∀ (diff : ℕ) (l : List ℤ),
      (adjustLoop dir step l diff).1.sum
        = l.sum + dir * ((diff : ℤ) - ((adjustLoop dir step l diff).2 : ℤ)) := by
  intro diff
  induction diff using Nat.strong_induction_on with
  | _ diff ih =>
    intro l
    rw [adjustLoop]
    split
    · split
      · rename_i h hb
        have hlt : (adjustPass dir step l diff).2.1 < diff := by
          have := adjustPass_diff_of_adjusted dir step l diff hb
          omega
        rw [ih _ hlt, adjustPass_sum]
        have h1 := adjustPass_diff_le dir step l diff
        have h2 := adjustLoop_diff_le dir step (adjustPass dir step l diff).2.1
          (adjustPass dir step l diff).1
        ring
      · rw [adjustPass_sum]
    · simp

/-- On exit the residual is below the step, or a full pass on the final
state adjusts nothing although the residual still reaches the step. -/
theorem adjustLoop_exit (dir : ℤ) (step : ℕ) (hstep : 0 < step) :
    ∀ (diff : ℕ) (l : List ℤ),
      (adjustLoop dir step l diff).2 < step
      ∨ ((adjustPass dir step (adjustLoop dir step l diff).1
            (adjustLoop dir step l diff).2).2.2 = false
          ∧ step ≤ (adjustLoop dir step l diff).2) := by
  intro diff
  induction diff using Nat.strong_induction_on with
  | _ diff ih =>
    intro l
    rw [adjustLoop]
    split
    · split
      · rename_i h hb
        have hlt : (adjustPass dir step l diff).2.1 < diff := by
          have := adjustPass_diff_of_adjusted dir step l diff hb
          omega
        exact ih _ hlt _
      · rename_i h hb
        rcases Nat.lt_or_ge (adjustPass dir step l diff).2.1 step with hc | hc
        · exact Or.inl hc
        · refine Or.inr ⟨?_, hc⟩
          have hid := adjustPass_unadjusted dir step l diff (by simpa using hb)
          have h1 : (adjustPass dir step l diff).1 = l := by rw [hid]
          have h2 : (adjustPass dir step l diff).2.1 = diff := by rw [hid]
          rw [h1, h2]
          simpa using hb
    · rename_i h
      push_neg at h
      exact Or.inl (by omega)

/-- The clamp-from pass keeps non-negative values non-negative. -/
theorem clampFrom_nonneg (prev : ℤ) (hprev : 0 ≤ prev) :
    ∀ l : List ℤ, (∀ x ∈ l, 0 ≤ x) → ∀ y ∈ clampFrom prev l, 0 ≤ y := by
  intro l
  induction l generalizing prev with
  | nil => intro _ y hy; simp [clampFrom] at hy
  | cons x xs ih =>
    intro hl y hy
    have hx : 0 ≤ x := hl x (List.mem_cons_self x xs)
    simp only [clampFrom] at hy
    rcases List.mem_cons.mp hy with rfl | hy2
    · exact le_min hx hprev
    · exact ih (min x prev) (le_min hx hprev)
        (fun z hz => hl z (List.mem_cons_of_mem x hz)) y hy2

/-- The clamp keeps non-negative values non-negative. -/
theorem clampNonInc_nonneg :
    ∀ l : List ℤ, (∀ x ∈ l, 0 ≤ x) → ∀ y ∈ clampNonInc l, 0 ≤ y := by
  intro l hl y hy
  cases l with
  | nil => simp [clampNonInc] at hy
  | cons x xs =>
    simp only [clampNonInc] at hy
    have hx : 0 ≤ x := hl x (List.mem_cons_self x xs)
    rcases List.mem_cons.mp hy with rfl | hy2
    · exact hx
    · exact clampFrom_nonneg x hx xs
        (fun z hz => hl z (List.mem_cons_of_mem x hz)) y hy2

/-- The clamp keeps step-divisible values step-divisible. -/
theorem clampFrom_dvd (d : ℤ) (prev : ℤ) (hprev : d ∣ prev) :
    ∀ l : List ℤ, (∀ x ∈ l, d ∣ x) → ∀ y ∈ clampFrom prev l, d ∣ y := by
  intro l
  induction l generalizing prev with
  | nil => intro _ y hy; simp [clampFrom] at hy
  | cons x xs ih =>
    intro hl y hy
    have hx : d ∣ x := hl x (List.mem_cons_self x xs)
    have hmin : d ∣ min x prev := by
      rcases min_cases x prev with ⟨h, -⟩ | ⟨h, -⟩ <;> rw [h]
      · exact hx
      · exact hprev
    simp only [clampFrom] at hy
    rcases List.mem_cons.mp hy with rfl | hy2
    · exact hmin
    · exact ih (min x prev) hmin
        (fun z hz => hl z (List.mem_cons_of_mem x hz)) y hy2

/-- The clamp keeps step-divisible values step-divisible. -/
theorem clampNonInc_dvd (d : ℤ) :
    ∀ l : List ℤ, (∀ x ∈ l, d ∣ x) → ∀ y ∈ clampNonInc l, d ∣ y := by
  intro l hl y hy
  cases l with
  | nil => simp [clampNonInc] at hy
  | cons x xs =>
    simp only [clampNonInc] at hy
    have hx : d ∣ x := hl x (List.mem_cons_self x xs)
    rcases List.mem_cons.mp hy with rfl | hy2
    · exact hx
    · exact clampFrom_dvd d x hx xs
        (fun z hz => hl z (List.mem_cons_of_mem x hz)) y hy2

/-- Every clamped value stays below the running bound. -/
theorem clampFrom_le_prev (prev : ℤ) :
    ∀ l : List ℤ, ∀ y ∈ clampFrom prev l, y ≤ prev := by
  intro l
  induction l generalizing prev with
  | nil => intro y hy; simp [clampFrom] at hy
  | cons x xs ih =>
    intro y hy
    simp only [clampFrom] at hy
    rcases List.mem_cons.mp hy with rfl | hy2
    · exact min_le_right x prev
    · exact le_trans (ih (min x prev) y hy2) (min_le_right x prev)

/-- Every value of a clamped list is at most the head. -/
theorem clampNonInc_le_head (x : ℤ) (xs : List ℤ) :
    ∀ y ∈ clampNonInc (x :: xs), y ≤ x := by
  intro y hy
  simp only [clampNonInc] at hy
  rcases List.mem_cons.mp hy with rfl | hy2
  · exact le_refl y
  · exact clampFrom_le_prev x xs y hy2

/-- Clamping can only lower the sum. -/
theorem clampFrom_sum_le (prev : ℤ) :
    ∀ l : List ℤ, (clampFrom prev l).sum ≤ l.sum := by
  intro l
  induction l generalizing prev with
  | nil => simp [clampFrom]
  | cons x xs ih =>
    simp only [clampFrom, List.sum_cons]
    have h1 : min x prev ≤ x := min_le_left x prev
    have h2 := ih (min x prev)
    omega

/-- Clamping can only lower the sum. -/
theorem clampNonInc_sum_le : ∀ l : List ℤ, (clampNonInc l).sum ≤ l.sum
  | [] => le_refl _
  | x :: xs => by
    simp only [clampNonInc, List.sum_cons]
    have := clampFrom_sum_le x xs
    omega

/-- All amounts of a rounding attempt are non-negative. -/
theorem tryRound_nonneg (values : List ℚ) (total : ℤ) (step : ℕ) :
    ∀ x ∈ (tryRound values total step).1, 0 ≤ x := by
  simp only [tryRound]
  exact clampNonInc_nonneg _
    (adjustLoop_nonneg _ _ _ _ (roundEntries_nonneg values step))

/-- All amounts of a rounding attempt are multiples of the step. -/
theorem tryRound_dvd (values : List ℚ) (total : ℤ) (step : ℕ) :
    ∀ x ∈ (tryRound values total step).1, (step : ℤ) ∣ x := by
  simp only [tryRound]
  exact clampNonInc_dvd _ _
    (adjustLoop_dvd _ _ _ _ (roundEntries_dvd values step))

/-- After a rounding attempt with positive step and non-negative total,
the achieved sum overshoots the total by less than one step. -/
theorem tryRound_snd_le (values : List ℚ) (total : ℤ) (step : ℕ)
    (hstep : 0 < step) (htot : 0 ≤ total) :
    (tryRound values total step).2 ≤ total + step - 1 := by
  simp only [tryRound]
  set r0 := roundEntries values step with hr0
  set d0 := total - r0.sum with hd0
  set lp := adjustLoop d0.sign step r0 d0.natAbs with hlp
  have hsum := adjustLoop_sum d0.sign step d0.natAbs r0
  have hdle := adjustLoop_diff_le d0.sign step d0.natAbs r0
  have hsgn : d0.sign * (d0.natAbs : ℤ) = d0 := Int.sign_mul_natAbs d0
  have hclamp := clampNonInc_sum_le lp.1
  rw [← hlp] at hsum hdle
  have hlout : lp.1.sum = total - d0.sign * (lp.2 : ℤ) := by
    rw [hsum]
    have : d0.sign * ((d0.natAbs : ℤ) - (lp.2 : ℤ))
        = d0.sign * (d0.natAbs : ℤ) - d0.sign * (lp.2 : ℤ) := by ring
    rw [this, hsgn]
    omega
  rcases Int.lt_trichotomy d0 0 with hneg | hzero | hpos
  · have hs1 : d0.sign = -1 := Int.sign_eq_neg_one_of_neg hneg
    rcases adjustLoop_exit d0.sign step hstep d0.natAbs r0 with hex | ⟨hfalse, hge⟩
    · rw [← hlp] at hex
      rw [hs1] at hlout
      omega
    · rw [← hlp] at hfalse hge
      exfalso
      have hnn : ∀ x ∈ lp.1, 0 ≤ x :=
        adjustLoop_nonneg _ _ _ _ (roundEntries_nonneg values step)
      have hdv : ∀ x ∈ lp.1, (step : ℤ) ∣ x :=
        adjustLoop_dvd _ _ _ _ (roundEntries_dvd values step)
      rw [hs1] at hfalse
      have hzero0 : ∀ x ∈ lp.1, x = 0 := fun x hx =>
        adjustPass_stuck step lp.1 lp.2 hfalse hge x hx (hnn x hx) (hdv x hx)
      have hsz : lp.1.sum = 0 := List.sum_eq_zero hzero0
      rw [hs1] at hlout
      omega
  · have hs0 : d0.sign = 0 := by rw [hzero]; rfl
    rw [hs0] at hlout
    omega
  · have hs1 : d0.sign = 1 := Int.sign_eq_one_of_pos hpos
    rw [hs1] at hlout
    have h2 : (0 : ℤ) ≤ (lp.2 : ℤ) := by positivity
    omega

/-- A positive sum has a positive member. -/
theorem exists_pos_of_sum_pos : ∀ l : List ℤ, 0 < l.sum → ∃ x ∈ l, 0 < x := by
  intro l
  induction l with
  | nil => intro h; simp at h
  | cons a as ih =>
    intro h
    rcases lt_or_le 0 a with ha | ha
    · exact ⟨a, List.mem_cons_self a as, ha⟩
    · have : 0 < as.sum := by
        simp only [List.sum_cons] at h
        omega
      rcases ih this with ⟨x, hx, hx0⟩
      exact ⟨x, List.mem_cons_of_mem a hx, hx0⟩

/-- If a rounding attempt overshoots a non-negative total, its first
place holds at least one step. -/
theorem tryRound_head_ge (values : List ℚ) (total : ℤ) (step : ℕ)
    ( _hstep : 0 < step) (htot : 0 ≤ total)
    (hover : total < (tryRound values total step).2)
    (x : ℤ) (xs : List ℤ) (hv : (tryRound values total step).1 = x :: xs) :
    (step : ℤ) ≤ x := by
  have hnn : ∀ y ∈ (tryRound values total step).1, 0 ≤ y := tryRound_nonneg values total step
  have hdv : ∀ y ∈ (tryRound values total step).1, (step : ℤ) ∣ y :=
    tryRound_dvd values total step
  have hsum : 0 < ((tryRound values total step).1).sum := by
    have : (tryRound values total step).2 = ((tryRound values total step).1).sum := by
      simp only [tryRound]
    omega
  rcases exists_pos_of_sum_pos _ hsum with ⟨y, hy, hy0⟩
  have hyx : y ≤ x := by
    have hle : ∀ z ∈ (tryRound values total step).1, z ≤ x := by
      have hcl : (tryRound values total step).1
          = clampNonInc (adjustLoop (total - (roundEntries values step).sum).sign step
              (roundEntries values step)
              (total - (roundEntries values step).sum).natAbs).1 := by
        simp only [tryRound]
      intro z hz
      rw [hcl] at hz hv
      cases hlout : (adjustLoop (total - (roundEntries values step).sum).sign step
          (roundEntries values step)
          (total - (roundEntries values step).sum).natAbs).1 with
      | nil => rw [hlout] at hv; simp [clampNonInc] at hv
      | cons a t =>
        rw [hlout] at hz hv
        have hax : a = x := by
          simp only [clampNonInc] at hv
          exact (List.cons.injEq _ _ _ _).mp hv |>.1
        rw [← hax]
        exact clampNonInc_le_head a t z hz
    exact hle y hy
  have hx0 : 0 < x := lt_of_lt_of_le hy0 hyx
  have hxd : (step : ℤ) ∣ x := by
    apply hdv
    rw [hv]
    exact List.mem_cons_self x xs
  exact Int.le_of_dvd hx0 hxd

/-- Every amount returned by the rounding scheme is non-negative
whenever the pool total is non-negative. -/
theorem roundPayoutsPrefer10Then5_nonneg (values : List ℚ) (total : ℤ)
    (htot : 0 ≤ total) :
    ∀ x ∈ roundPayoutsPrefer10Then5 values total, 0 ≤ x := by
  simp only [roundPayoutsPrefer10Then5]
  split
  · exact tryRound_nonneg values total 10
  · split
    · exact tryRound_nonneg values total 5
    · rename_i h5
      split
      · intro x hx; simp at hx
      · rename_i x xs hv
        intro y hy
        apply clampNonInc_nonneg _ _ y hy
        intro z hz
        have hxm : x ∈ (tryRound values total 5).1 := by
          rw [hv]; exact List.mem_cons_self x xs
        have hx0 : 0 ≤ x := tryRound_nonneg values total 5 x hxm
        rcases List.mem_cons.mp hz with rfl | hz2
        · rcases le_or_lt (tryRound values total 5).2 total with hle | hgt
          · omega
          · have hhead : (5 : ℤ) ≤ x :=
              tryRound_head_ge values total 5 (by norm_num) htot hgt x xs hv
            have hbound := tryRound_snd_le values total 5 (by norm_num) htot
            omega
        · apply tryRound_nonneg values total 5 z
          rw [hv]
          exact List.mem_cons_of_mem x hz2

/-! ### Placement choosers return valid, fitting indices -/

/-- Any index returned by the best-fit scan satisfies a property that
holds of the seed and of every fitting offset. -/
theorem bestFitAux_spec (s : ℕ) :
    ∀ (l : List ℕ) (k : ℕ) (bR : ℤ) (b : Option ℕ) (P : ℕ → Prop),
      (∀ i, b = some i → P i) →
      (∀ j, j < l.length → s ≤ l.getD j 0 → P (k + j)) →
      ∀ i, bestFitAux s l k bR b = some i → P i := by
  intro l
  induction l with
  | nil =>
    intro k bR b P hb hj i hi
    exact hb i hi
  | cons r rest ih =>
    intro k bR b P hb hj i hi
    simp only [bestFitAux] at hi
    split at hi
    · rename_i hcond
      refine ih (k + 1) (r : ℤ) (some k) P ?_ ?_ i hi
      · intro i2 h2
        cases h2
        have := hj 0 (by simp) (by simpa using hcond.1)
        simpa using this
      · intro j hjl hjs
        have := hj (j + 1) (by simpa using Nat.succ_lt_succ hjl) (by simpa using hjs)
        have harith : k + (j + 1) = k + 1 + j := by omega
        rw [harith] at this
        exact this
    · refine ih (k + 1) bR b P hb ?_ i hi
      intro j hjl hjs
      have := hj (j + 1) (by simpa using Nat.succ_lt_succ hjl) (by simpa using hjs)
      have harith : k + (j + 1) = k + 1 + j := by omega
      rw [harith] at this
      exact this

/-- The best-fit index is in range and its team fits the group. -/
theorem bestFit_spec (remaining : List ℕ) (s i : ℕ)
    (h : bestFit remaining s = some i) :
    i < remaining.length ∧ s ≤ remaining.getD i 0 := by
  refine bestFitAux_spec s remaining 0 (-1) none
    (fun j => j < remaining.length ∧ s ≤ remaining.getD j 0) ?_ ?_ i h
  · intro j hj
    cases hj
  · intro j hj hjs
    have h0 : 0 + j = j := by omega
    rw [h0]
    exact ⟨hj, hjs⟩

/-- The first-fit index is in range and its team fits the group. -/
theorem firstFit_spec (s : ℕ) :
    ∀ (l : List ℕ) (k i : ℕ), firstFit s l k = some i →
      ∃ j, j < l.length ∧ i = k + j ∧ s ≤ l.getD j 0 := by
  intro l
  induction l with
  | nil => intro k i h; simp [firstFit] at h
  | cons r rest ih =>
    intro k i h
    simp only [firstFit] at h
    split at h
    · rename_i hr
      cases h
      exact ⟨0, by simp, by omega, by simpa using hr⟩
    · rcases ih (k + 1) i h with ⟨j, hj, rfl, hjs⟩
      exact ⟨j + 1, by simpa using Nat.succ_lt_succ hj, by omega, by simpa using hjs⟩

/-- The order-scan index fits its team. -/
theorem findOrder_spec (remaining : List ℕ) (s : ℕ) :
    ∀ (order : List ℕ) (i : ℕ), findOrder remaining s order = some i →
      s ≤ remaining.getD i 0 := by
  intro order
  induction order with
  | nil => intro i h; simp [findOrder] at h
  | cons idx rest ih =>
    intro i h
    simp only [findOrder] at h
    split at h
    · rename_i hr
      cases h
      exact hr
    · exact ih i h

/-- An index whose remaining capacity fits a positive size is in
range. -/
theorem idx_lt_of_getD (remaining : List ℕ) (s i : ℕ) (hs : 1 ≤ s)
    (h : s ≤ remaining.getD i 0) : i < remaining.length := by
  by_contra hc
  push_neg at hc
  rw [List.getD_eq_default _ _ hc] at h
  omega

/-! ### Placement step updates -/

/-- Appending into one bucket of a list of lists permutes the flattened
content with the appended part moved to the end. -/
theorem flatten_set_append {α : Type} :
    ∀ (ls : List (List α)) (i : ℕ) (hi : i < ls.length) (ms : List α),
      ((ls.set i (ls[i] ++ ms)).flatten).Perm (ls.flatten ++ ms) := by
  intro ls
  induction ls with
  | nil => intro i hi; simp at hi
  | cons l0 rest ih =>
    intro i hi ms
    cases i with
    | zero =>
      simp only [List.getElem_cons_zero, List.set_cons_zero, List.flatten_cons,
        List.append_assoc]
      exact List.perm_append_comm.append_left l0
    | succ j =>
      simp only [List.getElem_cons_succ, List.set_cons_succ, List.flatten_cons,
        List.append_assoc]
      exact (ih j (by simpa using hi) ms).append_left l0

/-- `pushMembers` preserves the number of teams. -/
theorem pushMembers_length (teams : List Team) (idx : ℕ) (g : Group) :
    (pushMembers teams idx g).length = teams.length := by
  unfold pushMembers
  split <;> simp

/-- `pushMembers` at a valid index appends exactly the group members to
that team's player list. -/
theorem pushMembers_map_players (teams : List Team) (idx : ℕ) (g : Group)
    (hi : idx < teams.length) :
    (pushMembers teams idx g).map (·.players)
      = (teams.map (·.players)).set idx ((teams.map (·.players)).getD idx [] ++ g.members) := by
  unfold pushMembers
  rw [List.getElem?_eq_getElem hi]
  rw [List.map_set]
  congr 1
  rw [List.getD_eq_getElem _ _ (by simpa using hi)]
  simp

/-- Setting an entry to its own value changes nothing. -/
theorem list_set_self {α : Type} :
    ∀ (l : List α) (i : ℕ) (hi : i < l.length), l.set i l[i] = l := by
  intro l
  induction l with
  | nil => intro i hi; simp at hi
  | cons a as ih =>
    intro i hi
    cases i with
    | zero => simp
    | succ j => simpa using ih j (by simpa using hi)

/-- A simultaneous `set` at the same index distributes over `zipWith`. -/
theorem zipWith_set_set {α β γ : Type} (f : α → β → γ) :
    ∀ (l : List α) (m : List β) (i : ℕ) (a : α) (b : β),
      List.zipWith f (l.set i a) (m.set i b) = (List.zipWith f l m).set i (f a b) := by
  intro l
  induction l with
  | nil => intro m i a b; simp
  | cons x xs ih =>
    intro m i a b
    cases m with
    | nil => simp
    | cons y ys =>
      cases i with
      | zero => simp
      | succ j => simpa using ih ys j a b

/-- `pushMembers` at a valid index is a `set` of the appended team. -/
theorem pushMembers_eq_set (teams : List Team) (idx : ℕ) (g : Group)
    (hi : idx < teams.length) :
    pushMembers teams idx g
      = teams.set idx ⟨teams[idx].id, teams[idx].players ++ g.members,
          teams[idx].teamHandicap⟩ := by
  unfold pushMembers
  rw [List.getElem?_eq_getElem hi]

/-- All facts preserved by one placement step at a fitting index. -/
theorem place_step (teams : List Team) (rem : List ℕ) (g : Group)
    (hlen : teams.length = rem.length)
    (idx : ℕ) (hlt : idx < rem.length) (hfit : g.size ≤ rem.getD idx 0)
    (hgsz : g.size = g.members.length) :
    (pushMembers teams idx g).length = (rem.set idx (rem.getD idx 0 - g.size)).length
    ∧ List.zipWith (fun t r => t.players.length + r) (pushMembers teams idx g)
        (rem.set idx (rem.getD idx 0 - g.size))
        = List.zipWith (fun t r => t.players.length + r) teams rem
    ∧ (((pushMembers teams idx g).map (·.players)).flatten).Perm
        ((teams.map (·.players)).flatten ++ g.members)
    ∧ (∀ (i : ℕ) (t0 : Team), teams[i]? = some t0 →
        ∃ t1 : Team, (pushMembers teams idx g)[i]? = some t1
          ∧ ∃ ext, t1.players = t0.players ++ ext)
    ∧ (∃ t1 : Team, (pushMembers teams idx g)[idx]? = some t1
        ∧ ∀ m ∈ g.members, m ∈ t1.players) := by
  have hit : idx < teams.length := by omega
  have hrd : rem.getD idx 0 = rem[idx] := List.getD_eq_getElem rem 0 hlt
  refine ⟨?_, ?_, ?_, ?_, ?_⟩
  · rw [pushMembers_length]
    simp [hlen]
  · rw [pushMembers_eq_set teams idx g hit, zipWith_set_set]
    have hval : (⟨teams[idx].id, teams[idx].players ++ g.members,
          teams[idx].teamHandicap⟩ : Team).players.length
          + (rem.getD idx 0 - g.size)
        = teams[idx].players.length + rem[idx] := by
      simp only [List.length_append]
      rw [hrd] at hfit ⊢
      omega
    rw [hval]
    have hzl : idx < (List.zipWith (fun (t : Team) (r : ℕ) => t.players.length + r)
        teams rem).length := by
      rw [List.length_zipWith]
      omega
    have hze : (List.zipWith (fun (t : Team) (r : ℕ) => t.players.length + r)
        teams rem)[idx] = teams[idx].players.length + rem[idx] := by
      rw [List.getElem_zipWith]
    rw [← hze]
    exact list_set_self _ idx hzl
  · rw [pushMembers_map_players teams idx g hit]
    have hmlt : idx < (teams.map (·.players)).length := by simpa using hit
    have hmap : (teams.map (·.players)).getD idx [] = (teams.map (·.players))[idx] :=
      List.getD_eq_getElem _ _ hmlt
    rw [hmap]
    exact flatten_set_append (teams.map (·.players)) idx hmlt g.members
  · intro i t0 h0
    rw [pushMembers_eq_set teams idx g hit]
    by_cases hii : i = idx
    · subst hii
      refine ⟨⟨teams[i].id, teams[i].players ++ g.members, teams[i].teamHandicap⟩,
        List.getElem?_set_self hit, g.members, ?_⟩
      have ht0 : t0 = teams[i] := by
        rw [List.getElem?_eq_getElem hit] at h0
        exact ((Option.some.injEq _ _).mp h0).symm
      rw [ht0]
    · refine ⟨t0, ?_, [], by simp⟩
      rw [List.getElem?_set_ne (fun hc => hii hc.symm)]
      exact h0
  · refine ⟨⟨teams[idx].id, teams[idx].players ++ g.members, teams[idx].teamHandicap⟩, ?_, ?_⟩
    · rw [pushMembers_eq_set teams idx g hit]
      exact List.getElem?_set_self hit
    · intro m hm
      simp only [List.mem_append]
      exact Or.inr hm

/-- Invariants of a successful balanced placement: team count is
preserved, filled size plus remaining capacity is preserved pointwise,
the placed players are the initial ones plus all group members, player
lists only grow, and every group lands whole inside one team. -/
theorem placeBalanced_ok :
    ∀ (gs : List Group) (teams : List Team) (rem : List ℕ) (out : List Team),
      (∀ g ∈ gs, g.size = g.members.length ∧ g.members ≠ []) →
      teams.length = rem.length →
      placeBalanced gs teams rem = .ok out →
      ∃ rem2 : List ℕ,
        out.length = teams.length
        ∧ rem2.length = rem.length
        ∧ List.zipWith (fun (t : Team) (r : ℕ) => t.players.length + r) out rem2
            = List.zipWith (fun (t : Team) (r : ℕ) => t.players.length + r) teams rem
        ∧ ((out.map (·.players)).flatten).Perm
            ((teams.map (·.players)).flatten ++ (gs.map (·.members)).flatten)
        ∧ (∀ (i : ℕ) (t0 : Team), teams[i]? = some t0 →
            ∃ t1 : Team, out[i]? = some t1 ∧ ∃ ext, t1.players = t0.players ++ ext)
        ∧ (∀ g ∈ gs, ∃ t ∈ out, ∀ m ∈ g.members, m ∈ t.players) := by
  intro gs
  induction gs with
  | nil =>
    intro teams rem out _ hlen hok
    simp only [placeBalanced] at hok
    cases hok
    refine ⟨rem, rfl, rfl, rfl, by simp, ?_, by simp⟩
    intro i t0 h0
    exact ⟨t0, h0, [], by simp⟩
  | cons g gs ih =>
    intro teams rem out hgs hlen hok
    simp only [placeBalanced] at hok
    rcases hidx : (match bestFit rem g.size with
        | some i => some i
        | none => firstFit g.size rem 0) with _ | idx
    · rw [hidx] at hok
      cases hok
    · rw [hidx] at hok
      have hspec : idx < rem.length ∧ g.size ≤ rem.getD idx 0 := by
        rcases hbf : bestFit rem g.size with _ | i
        · rw [hbf] at hidx
          simp only at hidx
          rcases firstFit_spec g.size rem 0 idx hidx with ⟨j, hj, hji, hjs⟩
          have : idx = j := by omega
          subst this
          exact ⟨hj, hjs⟩
        · rw [hbf] at hidx
          simp only [Option.some.injEq] at hidx
          rw [hidx] at hbf
          exact bestFit_spec rem g.size idx hbf
      rcases hgs g (List.mem_cons_self g gs) with ⟨hgsz, hgne⟩
      rcases place_step teams rem g hlen idx hspec.1 hspec.2 hgsz with
        ⟨hslen, hszip, hsperm, hsmono, t1, ht1, ht1mem⟩
      rcases ih (pushMembers teams idx g) (rem.set idx (rem.getD idx 0 - g.size)) out
        (fun g2 hg2 => hgs g2 (List.mem_cons_of_mem g hg2)) hslen hok with
        ⟨rem3, holen, hrlen, hozip, hoperm, homono, hosplit⟩
      refine ⟨rem3, ?_, ?_, ?_, ?_, ?_, ?_⟩
      · rw [holen, pushMembers_length]
      · rw [hrlen]
        simp
      · rw [hozip, hszip]
      · refine hoperm.trans ?_
        simp only [List.map_cons, List.flatten_cons]
        have h1 := hsperm.append_right ((gs.map (·.members)).flatten)
        rw [List.append_assoc] at h1
        exact h1
      · intro i t0 h0
        rcases hsmono i t0 h0 with ⟨tm, htm, e1, he1⟩
        rcases homono i tm htm with ⟨tn, htn, e2, he2⟩
        exact ⟨tn, htn, e1 ++ e2, by rw [he2, he1, List.append_assoc]⟩
      · intro g2 hg2
        rcases List.mem_cons.mp hg2 with rfl | hg2s
        · rcases homono idx t1 ht1 with ⟨t2, ht2, e2, he2⟩
          refine ⟨t2, List.getElem?_mem ht2, ?_⟩
          intro m hm
          rw [he2]
          exact List.mem_append.mpr (Or.inl (ht1mem m hm))
        · exact hosplit g2 hg2s

/-- The same invariants for a successful randomized placement. -/
theorem placeRandom_ok (s : RandSrc) :
    ∀ (gs : List Group) (teams : List Team) (rem : List ℕ) (ix : ℕ) (out : List Team),
      (∀ g ∈ gs, g.size = g.members.length ∧ g.members ≠ []) →
      teams.length = rem.length →
      placeRandom s gs teams rem ix = .ok out →
      ∃ rem2 : List ℕ,
        out.length = teams.length
        ∧ rem2.length = rem.length
        ∧ List.zipWith (fun (t : Team) (r : ℕ) => t.players.length + r) out rem2
            = List.zipWith (fun (t : Team) (r : ℕ) => t.players.length + r) teams rem
        ∧ ((out.map (·.players)).flatten).Perm
            ((teams.map (·.players)).flatten ++ (gs.map (·.members)).flatten)
        ∧ (∀ (i : ℕ) (t0 : Team), teams[i]? = some t0 →
            ∃ t1 : Team, out[i]? = some t1 ∧ ∃ ext, t1.players = t0.players ++ ext)
        ∧ (∀ g ∈ gs, ∃ t ∈ out, ∀ m ∈ g.members, m ∈ t.players) := by
  intro gs
  induction gs with
  | nil =>
    intro teams rem ix out _ hlen hok
    simp only [placeRandom] at hok
    cases hok
    refine ⟨rem, rfl, rfl, rfl, by simp, ?_, by simp⟩
    intro i t0 h0
    exact ⟨t0, h0, [], by simp⟩
  | cons g gs ih =>
    intro teams rem ix out hgs hlen hok
    simp only [placeRandom] at hok
    rcases hgs g (List.mem_cons_self g gs) with ⟨hgsz, hgne⟩
    have hgpos : 1 ≤ g.size := by
      rw [hgsz]
      exact List.length_pos.mpr hgne
    rcases hidx : (match findOrder rem g.size
          (fisherYates s (List.range teams.length) ix).1 with
        | some i => some i
        | none => firstFit g.size rem 0) with _ | idx
    · rw [hidx] at hok
      cases hok
    · rw [hidx] at hok
      have hspec : idx < rem.length ∧ g.size ≤ rem.getD idx 0 := by
        rcases hfo : findOrder rem g.size
            (fisherYates s (List.range teams.length) ix).1 with _ | i
        · rw [hfo] at hidx
          simp only at hidx
          rcases firstFit_spec g.size rem 0 idx hidx with ⟨j, hj, hji, hjs⟩
          have : idx = j := by omega
          subst this
          exact ⟨hj, hjs⟩
        · rw [hfo] at hidx
          simp only [Option.some.injEq] at hidx
          rw [hidx] at hfo
          have hfit := findOrder_spec rem g.size _ idx hfo
          exact ⟨idx_lt_of_getD rem g.size idx hgpos hfit, hfit⟩
      rcases place_step teams rem g hlen idx hspec.1 hspec.2 hgsz with
        ⟨hslen, hszip, hsperm, hsmono, t1, ht1, ht1mem⟩
      rcases ih (pushMembers teams idx g) (rem.set idx (rem.getD idx 0 - g.size)) _ out
        (fun g2 hg2 => hgs g2 (List.mem_cons_of_mem g hg2)) hslen hok with
        ⟨rem3, holen, hrlen, hozip, hoperm, homono, hosplit⟩
      refine ⟨rem3, ?_, ?_, ?_, ?_, ?_, ?_⟩
      · rw [holen, pushMembers_length]
      · rw [hrlen]
        simp
      · rw [hozip, hszip]
      · refine hoperm.trans ?_
        simp only [List.map_cons, List.flatten_cons]
        have h1 := hsperm.append_right ((gs.map (·.members)).flatten)
        rw [List.append_assoc] at h1
        exact h1
      · intro i t0 h0
        rcases hsmono i t0 h0 with ⟨tm, htm, e1, he1⟩
        rcases homono i tm htm with ⟨tn, htn, e2, he2⟩
        exact ⟨tn, htn, e1 ++ e2, by rw [he2, he1, List.append_assoc]⟩
      · intro g2 hg2
        rcases List.mem_cons.mp hg2 with rfl | hg2s
        · rcases homono idx t1 ht1 with ⟨t2, ht2, e2, he2⟩
          refine ⟨t2, List.getElem?_mem ht2, ?_⟩
          intro m hm
          rw [he2]
          exact List.mem_append.mpr (Or.inl (ht1mem m hm))
        · exact hosplit g2 hg2s

/-! ### Group-formation facts -/

/-- Adding a player keeps every map entry non-empty. -/
theorem addToGroups_ne_nil :
    ∀ (acc : List (String × List PlayerWithCH)) (gid : String) (p : PlayerWithCH),
      (∀ e ∈ acc, e.2 ≠ []) → ∀ e ∈ addToGroups acc gid p, e.2 ≠ [] := by
  intro acc
  induction acc with
  | nil =>
    intro gid p _ e he
    simp only [addToGroups, List.mem_singleton] at he
    subst he
    simp
  | cons kv rest ih =>
    intro gid p hacc e he
    rcases kv with ⟨k, ms⟩
    simp only [addToGroups] at he
    split at he
    · rcases List.mem_cons.mp he with rfl | h2
      · simp
      · exact hacc e (List.mem_cons_of_mem _ h2)
    · rcases List.mem_cons.mp he with rfl | h2
      · exact hacc (k, ms) (List.mem_cons_self _ _)
      · exact ih gid p (fun e2 he2 => hacc e2 (List.mem_cons_of_mem _ he2)) e h2

/-- Every entry of the collected map is non-empty. -/
theorem collectGroups_ne_nil (ps : List PlayerWithCH) :
    ∀ e ∈ collectGroups ps, e.2 ≠ [] := by
  have hgen : ∀ (l : List PlayerWithCH) (acc : List (String × List PlayerWithCH)),
      (∀ e ∈ acc, e.2 ≠ []) →
      ∀ e ∈ l.foldl (fun acc p => addToGroups acc (gidOf p) p) acc, e.2 ≠ [] := by
    intro l
    induction l with
    | nil => intro acc hacc; simpa using hacc
    | cons p l2 ih =>
      intro acc hacc
      exact ih _ (addToGroups_ne_nil acc (gidOf p) p hacc)
  exact hgen ps [] (by simp)

/-- Adding a player appends it to the flattened member lists. -/
theorem addToGroups_flatten :
    ∀ (acc : List (String × List PlayerWithCH)) (gid : String) (p : PlayerWithCH),
      (((addToGroups acc gid p).map (·.2)).flatten).Perm
        (((acc.map (·.2)).flatten) ++ [p]) := by
  intro acc
  induction acc with
  | nil => intro gid p; simp [addToGroups]
  | cons kv rest ih =>
    intro gid p
    rcases kv with ⟨k, ms⟩
    simp only [addToGroups]
    split
    · simp only [List.map_cons, List.flatten_cons, List.append_assoc]
      exact List.perm_append_comm.append_left ms
    · simp only [List.map_cons, List.flatten_cons, List.append_assoc]
      exact (ih gid p).append_left ms

/-- The collected map holds exactly the roster players. -/
theorem collectGroups_flatten (ps : List PlayerWithCH) :
    (((collectGroups ps).map (·.2)).flatten).Perm ps := by
  have hgen : ∀ (l : List PlayerWithCH) (acc : List (String × List PlayerWithCH)),
      (((l.foldl (fun acc p => addToGroups acc (gidOf p) p) acc).map (·.2)).flatten).Perm
        (((acc.map (·.2)).flatten) ++ l) := by
    intro l
    induction l with
    | nil => intro acc; simp
    | cons p l2 ih =>
      intro acc
      refine (ih (addToGroups acc (gidOf p) p)).trans ?_
      have h1 := (addToGroups_flatten acc (gidOf p) p).append_right l2
      rw [List.append_assoc] at h1
      simpa using h1
  simpa using hgen ps []

/-- The groups of one entry hold exactly its members. -/
theorem mkGroupsOfEntry_flatten (e : String × List PlayerWithCH) :
    (((mkGroupsOfEntry e).map (·.members)).flatten) = e.2 := by
  by_cases h : 4 < e.2.length
  · rw [mkGroupsOfEntry_oversized e h, mapIdxFrom_chunkGroup_members, chunks4_join]
  · simp [mkGroupsOfEntry, h]

/-- Every group of one non-empty entry has matching size and non-empty
members. -/
theorem mkGroupsOfEntry_facts (e : String × List PlayerWithCH) (hne : e.2 ≠ []) :
    ∀ g ∈ mkGroupsOfEntry e, g.size = g.members.length ∧ g.members ≠ [] := by
  intro g hg
  by_cases h : 4 < e.2.length
  · rw [mkGroupsOfEntry_oversized e h] at hg
    rcases mapIdxFrom_chunkGroup_mem e.1 0 (chunks4 e.2) g hg with ⟨i, c, hc, rfl⟩
    exact ⟨rfl, (chunks4_mem e.2 c hc).1⟩
  · simp only [mkGroupsOfEntry, if_neg h, List.mem_singleton] at hg
    subst hg
    exact ⟨rfl, hne⟩

/-- Every formed group has matching size and non-empty members. -/
theorem formGroups_facts (enr : List PlayerWithCH) :
    ∀ g ∈ formGroups enr, g.size = g.members.length ∧ g.members ≠ [] := by
  intro g hg
  rcases List.mem_flatMap.mp hg with ⟨e, he, hge⟩
  exact mkGroupsOfEntry_facts e (collectGroups_ne_nil enr e he) g hge

/-- The formed groups hold exactly the enriched roster. -/
theorem formGroups_flatten (enr : List PlayerWithCH) :
    (((formGroups enr).map (·.members)).flatten).Perm enr := by
  have heq : ∀ es : List (String × List PlayerWithCH),
      (((es.flatMap mkGroupsOfEntry).map (·.members)).flatten)
        = ((es.map (·.2)).flatten) := by
    intro es
    induction es with
    | nil => simp
    | cons e es ih =>
      simp only [List.flatMap_cons, List.map_append, List.flatten_append,
        List.map_cons, List.flatten_cons, ih, mkGroupsOfEntry_flatten]
  rw [formGroups, heq]
  exact collectGroups_flatten enr

/-! ### Initial teams -/

/-- The initial empty teams contribute no players. -/
theorem teamsInit_flatten (sizes : List ℕ) :
    ∀ k, (((mapIdxFrom (fun idx _ => (⟨idx + 1, [], 0⟩ : Team)) k sizes).map
      (·.players)).flatten) = [] := by
  induction sizes with
  | nil => intro k; simp [mapIdxFrom]
  | cons a as ih => intro k; simp [mapIdxFrom, ih]

/-- Filled size plus capacity of the initial state is the plan itself. -/
theorem teamsInit_zip (sizes : List ℕ) :
    ∀ k, List.zipWith (fun (t : Team) (r : ℕ) => t.players.length + r)
      (mapIdxFrom (fun idx _ => (⟨idx + 1, [], 0⟩ : Team)) k sizes) sizes = sizes := by
  induction sizes with
  | nil => intro k; simp [mapIdxFrom]
  | cons a as ih => intro k; simp [mapIdxFrom, ih]

/-- Splitting the sum of a pointwise sum. -/
theorem zip_sum_split :
    ∀ (out : List Team) (rem : List ℕ), out.length = rem.length →
      (List.zipWith (fun (t : Team) (r : ℕ) => t.players.length + r) out rem).sum
        = (out.map (·.players.length)).sum + rem.sum := by
  intro out
  induction out with
  | nil =>
    intro rem h
    cases rem
    · simp
    · simp at h
  | cons t ts ih =>
    intro rem h
    cases rem with
    | nil => simp at h
    | cons r rs =>
      simp only [List.zipWith_cons_cons, List.sum_cons, List.map_cons]
      rw [ih rs (by simpa using h)]
      omega

/-- If every capacity is exhausted, the pointwise sums are the filled
sizes. -/
theorem zip_of_zero_rem :
    ∀ (out : List Team) (rem : List ℕ), out.length = rem.length →
      (∀ x ∈ rem, x = 0) →
      List.zipWith (fun (t : Team) (r : ℕ) => t.players.length + r) out rem
        = out.map (·.players.length) := by
  intro out
  induction out with
  | nil => intro rem h _; simp
  | cons t ts ih =>
    intro rem h hz
    cases rem with
    | nil => simp at h
    | cons r rs =>
      have hr : r = 0 := hz r (List.mem_cons_self r rs)
      simp only [List.zipWith_cons_cons, List.map_cons]
      rw [hr, ih rs (by simpa using h) (fun x hx => hz x (List.mem_cons_of_mem r hx))]
      simp

/-- In `ℕ`, a zero sum forces every member to zero. -/
theorem nat_sum_zero : ∀ (l : List ℕ), l.sum = 0 → ∀ x ∈ l, x = 0 := by
  intro l
  induction l with
  | nil => intro _ x hx; simp at hx
  | cons a as ih =>
    intro h x hx
    simp only [List.sum_cons] at h
    rcases List.mem_cons.mp hx with rfl | hx2
    · omega
    · exact ih (by omega) x hx2

/-! ### Success decomposition of the pipeline -/

/-- A successful `generateGame` run is a successful placement followed
by `finishGame`. -/
theorem generateGame_ok_decomp {course : Course} {players : List Player}
    {st : GameSettings} {amb : RandSrc} {r : GameResult}
    (h : generateGame course players st amb = .ok r) :
    ∃ tf : List Team,
      placedTeams st amb (formGroups (players.map (computePlayerCH course)))
        (mapIdxFrom (fun idx _ => ⟨idx + 1, [], 0⟩) 0
          (determineTeamSizes (players.map (computePlayerCH course)).length))
        (determineTeamSizes (players.map (computePlayerCH course)).length) = .ok tf
      ∧ r = finishGame course (players.map (computePlayerCH course)) st tf := by
  simp only [generateGame] at h
  rcases hp : placedTeams st amb (formGroups (players.map (computePlayerCH course)))
      (mapIdxFrom (fun idx _ => ⟨idx + 1, [], 0⟩) 0
        (determineTeamSizes (players.map (computePlayerCH course)).length))
      (determineTeamSizes (players.map (computePlayerCH course)).length) with e | tf
  · rw [hp] at h
    simp [Except.map] at h
  · rw [hp] at h
    simp only [Except.map, Except.ok.injEq] at h
    exact ⟨tf, rfl, h.symm⟩

/-- A successful placement stage is a successful run of one of the two
placers on some permutation of the formed groups. -/
theorem placedTeams_ok_decomp {st : GameSettings} {amb : RandSrc}
    {groups : List Group} {teamsInit : List Team} {sizes : List ℕ} {tf : List Team}
    (h : placedTeams st amb groups teamsInit sizes = .ok tf) :
    ∃ gs2 : List Group, gs2.Perm groups ∧
      (placeBalanced gs2 teamsInit sizes = .ok tf
        ∨ ∃ (s : RandSrc) (ix : ℕ), placeRandom s gs2 teamsInit sizes ix = .ok tf) := by
  simp only [placedTeams] at h
  split at h
  · rcases hs : st.randomSeed with _ | seed
    · rw [hs] at h
      exact ⟨sortByLE randomLE (fisherYates amb groups 0).1,
        (sortByLE_perm _ _).trans (fisherYates_perm amb groups 0),
        Or.inr ⟨amb, (fisherYates amb groups 0).2, h⟩⟩
    · rw [hs] at h
      exact ⟨sortByLE randomLE (fisherYates (mulberrySeq seed) groups 0).1,
        (sortByLE_perm _ _).trans (fisherYates_perm (mulberrySeq seed) groups 0),
        Or.inr ⟨mulberrySeq seed, 0, h⟩⟩
  · exact ⟨sortByLE balancedLE groups, sortByLE_perm _ _, Or.inl h⟩

/-- The renumbering map keeps players and team handicap. -/
theorem mapIdxFrom_ren_proj :
    ∀ (k : ℕ) (l : List Team),
      (mapIdxFrom (fun idx t => (⟨idx + 1, t.players, t.teamHandicap⟩ : Team)) k l).map
          (fun t => (t.players, t.teamHandicap))
        = l.map (fun t => (t.players, t.teamHandicap)) := by
  intro k l
  induction l generalizing k with
  | nil => simp [mapIdxFrom]
  | cons t ts ih => simp [mapIdxFrom, ih]

/-- The renumbering map keeps the player lists. -/
theorem mapIdxFrom_ren_players (k : ℕ) (l : List Team) :
    (mapIdxFrom (fun idx t => (⟨idx + 1, t.players, t.teamHandicap⟩ : Team)) k l).map
        (·.players)
      = l.map (·.players) := by
  have h := congrArg (List.map Prod.fst) (mapIdxFrom_ren_proj k l)
  simpa [List.map_map, Function.comp] using h

/-- The renumbering map assigns ids `k+1, k+2, ...`. -/
theorem mapIdxFrom_ren_ids :
    ∀ (k : ℕ) (l : List Team),
      (mapIdxFrom (fun idx t => (⟨idx + 1, t.players, t.teamHandicap⟩ : Team)) k l).map
          (·.id)
        = List.range' (k + 1) l.length := by
  intro k l
  induction l generalizing k with
  | nil => simp [mapIdxFrom]
  | cons t ts ih => simp [mapIdxFrom, List.range', ih]

/-- Claim C2 (amended): whenever `generateGame` returns a result — it
can instead fail with the placement error even when all groups have at
most 4 members — every enriched player appears in exactly one output
team, the multiset of team sizes equals the planned size list, and no
formed group is split across teams. -/
theorem generateGame_partition (course : Course) (players : List Player)
    (st : GameSettings) (amb : RandSrc) (r : GameResult)
    (h : generateGame course players st amb = .ok r) :
    ((r.teams.map (·.players)).flatten).Perm (players.map (computePlayerCH course))
    ∧ ((r.teams.map (·.players.length) : List ℕ) : Multiset ℕ)
        = ((determineTeamSizes players.length : List ℕ) : Multiset ℕ)
    ∧ ∀ g ∈ formGroups (players.map (computePlayerCH course)),
        ∃ t ∈ r.teams, ∀ m ∈ g.members, m ∈ t.players := by
  obtain ⟨tf, hpl, rfl⟩ := generateGame_ok_decomp h
  obtain ⟨gs2, hgperm, hplace⟩ := placedTeams_ok_decomp hpl
  have hfacts : ∀ g ∈ gs2, g.size = g.members.length ∧ g.members ≠ [] :=
    fun g hg => formGroups_facts _ g (hgperm.mem_iff.mp hg)
  have hinitlen :
      (mapIdxFrom (fun idx _ => (⟨idx + 1, [], 0⟩ : Team)) 0
          (determineTeamSizes (players.map (computePlayerCH course)).length)).length
        = (determineTeamSizes (players.map (computePlayerCH course)).length).length :=
    mapIdxFrom_length _ 0 _
  have hinv : ∃ rem2 : List ℕ,
      tf.length = (mapIdxFrom (fun idx _ => (⟨idx + 1, [], 0⟩ : Team)) 0
        (determineTeamSizes (players.map (computePlayerCH course)).length)).length
      ∧ rem2.length = (determineTeamSizes (players.map (computePlayerCH course)).length).length
      ∧ List.zipWith (fun (t : Team) (r : ℕ) => t.players.length + r) tf rem2
          = List.zipWith (fun (t : Team) (r : ℕ) => t.players.length + r)
              (mapIdxFrom (fun idx _ => (⟨idx + 1, [], 0⟩ : Team)) 0
                (determineTeamSizes (players.map (computePlayerCH course)).length))
              (determineTeamSizes (players.map (computePlayerCH course)).length)
      ∧ ((tf.map (·.players)).flatten).Perm
          (((mapIdxFrom (fun idx _ => (⟨idx + 1, [], 0⟩ : Team)) 0
              (determineTeamSizes (players.map (computePlayerCH course)).length)).map
                (·.players)).flatten ++ (gs2.map (·.members)).flatten)
      ∧ (∀ g ∈ gs2, ∃ t ∈ tf, ∀ m ∈ g.members, m ∈ t.players) := by
    rcases hplace with hb | ⟨s, ix, hr⟩
    · rcases placeBalanced_ok gs2 _ _ tf hfacts hinitlen hb with
        ⟨rem2, h1, h2, h3, h4, h5, h6⟩
      exact ⟨rem2, h1, h2, h3, h4, h6⟩
    · rcases placeRandom_ok s gs2 _ _ ix tf hfacts hinitlen hr with
        ⟨rem2, h1, h2, h3, h4, h5, h6⟩
      exact ⟨rem2, h1, h2, h3, h4, h6⟩
  obtain ⟨rem2, holen, hrlen, hozip, hoperm, hosplit⟩ := hinv
  -- the flattened placed players are exactly the enriched roster
  have hflat : ((tf.map (·.players)).flatten).Perm
      (players.map (computePlayerCH course)) := by
    refine hoperm.trans ?_
    rw [teamsInit_flatten]
    simp only [List.nil_append]
    exact (List.Perm.flatten (hgperm.map (·.members))).trans
      (formGroups_flatten (players.map (computePlayerCH course)))
  -- each team is filled exactly to its planned size
  have hzipinit :
      List.zipWith (fun (t : Team) (r : ℕ) => t.players.length + r)
          (mapIdxFrom (fun idx _ => (⟨idx + 1, [], 0⟩ : Team)) 0
            (determineTeamSizes (players.map (computePlayerCH course)).length))
          (determineTeamSizes (players.map (computePlayerCH course)).length)
        = determineTeamSizes (players.map (computePlayerCH course)).length :=
    teamsInit_zip _ 0
  have hsizes : tf.map (·.players.length)
      = determineTeamSizes (players.map (computePlayerCH course)).length := by
    have hlen2 : tf.length = rem2.length := by
      rw [holen, hinitlen, ← hrlen]
    have hsum : (List.zipWith (fun (t : Team) (r : ℕ) => t.players.length + r) tf rem2).sum
        = (determineTeamSizes (players.map (computePlayerCH course)).length).sum := by
      rw [hozip, hzipinit]
    rw [zip_sum_split tf rem2 hlen2, determineTeamSizes_sum] at hsum
    have hfl : (tf.map (·.players.length)).sum
        = (players.map (computePlayerCH course)).length := by
      have h1 := hflat.length_eq
      rw [List.length_flatten] at h1
      rw [← h1]
      rw [List.map_map]
      rfl
    have hrem0 : rem2.sum = 0 := by
      rw [hfl] at hsum
      omega
    have hallz : ∀ x ∈ rem2, x = 0 := nat_sum_zero rem2 hrem0
    rw [← zip_of_zero_rem tf rem2 hlen2 hallz, hozip, hzipinit]
  -- transfer through finishGame: recompute, sort, renumber
  have hth : (finishGame course (players.map (computePlayerCH course)) st tf).teams
      = mapIdxFrom (fun idx t => (⟨idx + 1, t.players, t.teamHandicap⟩ : Team)) 0
          (sortByLE teamsLE (tf.map (fun t => ⟨t.id, t.players, sumCH t.players⟩))) := by
    simp only [finishGame]
  have hHplayers : (tf.map (fun t => (⟨t.id, t.players, sumCH t.players⟩ : Team))).map
      (·.players) = tf.map (·.players) := by
    rw [List.map_map]
    rfl
  have hsortperm := sortByLE_perm teamsLE
    (tf.map (fun t => (⟨t.id, t.players, sumCH t.players⟩ : Team)))
  have hfin_players :
      ((finishGame course (players.map (computePlayerCH course)) st tf).teams.map
        (·.players)).Perm (tf.map (·.players)) := by
    rw [hth, mapIdxFrom_ren_players]
    have := hsortperm.map (·.players)
    rw [hHplayers] at this
    exact this
  refine ⟨?_, ?_, ?_⟩
  · exact (List.Perm.flatten hfin_players).trans hflat
  · have h1 : ((finishGame course (players.map (computePlayerCH course)) st tf).teams.map
        (·.players.length)).Perm (tf.map (·.players.length)) := by
      have h2 := hfin_players.map List.length
      simpa only [List.map_map, Function.comp_def] using h2
    rw [hsizes] at h1
    rw [List.length_map] at h1
    exact Quotient.sound h1
  · intro g hg
    obtain ⟨t, ht, hmem⟩ := hosplit g (hgperm.mem_iff.mpr hg)
    have htH : (⟨t.id, t.players, sumCH t.players⟩ : Team)
        ∈ tf.map (fun t => (⟨t.id, t.players, sumCH t.players⟩ : Team)) :=
      List.mem_map.mpr ⟨t, ht, rfl⟩
    have htS : (⟨t.id, t.players, sumCH t.players⟩ : Team)
        ∈ sortByLE teamsLE (tf.map (fun t => (⟨t.id, t.players, sumCH t.players⟩ : Team))) :=
      hsortperm.mem_iff.mpr htH
    have hproj : ((⟨t.id, t.players, sumCH t.players⟩ : Team).players,
          (⟨t.id, t.players, sumCH t.players⟩ : Team).teamHandicap)
        ∈ ((finishGame course (players.map (computePlayerCH course)) st tf).teams.map
            (fun t => (t.players, t.teamHandicap))) := by
      rw [hth, mapIdxFrom_ren_proj]
      exact List.mem_map.mpr ⟨_, htS, rfl⟩
    rcases List.mem_map.mp hproj with ⟨t2, ht2, hpeq⟩
    refine ⟨t2, ht2, ?_⟩
    intro m hm
    have : t2.players = t.players := congrArg Prod.fst hpeq
    rw [this]
    exact hmem m hm

/-- A six-player roster: four players linked as group `"g"`, two
singletons. -/
def c2p (i : String) (g : Option String) : Player := ⟨i, "P", none, 0, Tee.white, g⟩

/-- The six-player roster of the C2 counterexample. -/
def c2Players : List Player :=
  [c2p "p" (some "g"), c2p "q" (some "g"), c2p "r" (some "g"), c2p "s" (some "g"),
   c2p "x" none, c2p "y" none]

/-- Enriched record of a C2 player (course handicap 0). -/
def c2e (i : String) (g : Option String) : PlayerWithCH := ⟨c2p i g, 0⟩

/-- The linked group of four. -/
def c2gG : Group :=
  ⟨"g", [c2e "p" (some "g"), c2e "q" (some "g"), c2e "r" (some "g"), c2e "s" (some "g")], 4, 0⟩

/-- Singleton group of player x. -/
def c2gX : Group := ⟨"single:x", [c2e "x" none], 1, 0⟩

/-- Singleton group of player y. -/
def c2gY : Group := ⟨"single:y", [c2e "y" none], 1, 0⟩

/-- Enrichment of the six-player roster. -/
theorem c2Enr : c2Players.map (computePlayerCH sCourse)
    = [c2e "p" (some "g"), c2e "q" (some "g"), c2e "r" (some "g"), c2e "s" (some "g"),
       c2e "x" none, c2e "y" none] := by
  norm_num [c2Players, c2p, c2e, computePlayerCH, courseHandicapFor, slopeForTee,
    sCourse, orZero, jsRound]

/-- Group formation of the six-player roster. -/
theorem c2Groups :
    formGroups [c2e "p" (some "g"), c2e "q" (some "g"), c2e "r" (some "g"),
      c2e "s" (some "g"), c2e "x" none, c2e "y" none] = [c2gG, c2gX, c2gY] := by
  have h1 : ("single:" ++ "x" : String) = "single:x" := rfl
  have h2 : ("single:" ++ "y" : String) = "single:y" := rfl
  have h3 : (("g" : String) = "single:x") = False := by
    simp only [eq_iff_iff, iff_false]
    decide
  have h4 : (("g" : String) = "single:y") = False := by
    simp only [eq_iff_iff, iff_false]
    decide
  have h5 : (("single:x" : String) = "single:y") = False := by
    simp only [eq_iff_iff, iff_false]
    decide
  norm_num [formGroups, collectGroups, addToGroups, gidOf, mkGroupsOfEntry,
    sumCH, c2e, c2p, c2gG, c2gX, c2gY, h1, h2, h3, h4, h5]

/-- Comparator facts for the three groups. -/
theorem c2BLE1 : balancedLE c2gG c2gX = true := by decide

/-- Comparator facts for the two singletons. -/
theorem c2BLE2 : balancedLE c2gX c2gY = true := by decide

/-- Balanced ordering of the three groups. -/
theorem c2Sorted : sortByLE balancedLE [c2gG, c2gX, c2gY] = [c2gG, c2gX, c2gY] := by
  simp only [sortByLE, insertLE, c2BLE1, c2BLE2, if_true]

/-- The group of four cannot be placed into the `[3, 3]` plan. -/
theorem c2Placed :
    placeBalanced [c2gG, c2gX, c2gY] [⟨1, [], 0⟩, ⟨2, [], 0⟩] [3, 3]
      = .error (placeErr 4) := by
  norm_num [placeBalanced, bestFit, bestFitAux, firstFit, c2gG]

/-- Claim C2, counterexample: a roster whose groups all have at most 4
members (sizes 4, 1, 1) still reaches the "Unable to place group" error
under the balanced policy, because six players are planned as `[3, 3]`. -/
theorem generateGame_group_of_four_error :
    generateGame sCourse c2Players sSt (fun _ => 0)
      = .error "Unable to place group of size 4 within team capacities"
    ∧ ∀ g ∈ formGroups (c2Players.map (computePlayerCH sCourse)), g.size ≤ 4 := by
  constructor
  · simp only [generateGame, c2Enr, List.length_cons, List.length_nil, Nat.reduceAdd]
    rw [show determineTeamSizes 6 = [3, 3] from rfl]
    simp only [placedTeams, mapIdxFrom, Nat.reduceAdd, jsTruthy, sSt,
      Bool.false_eq_true, if_false]
    rw [c2Groups, c2Sorted, c2Placed]
    rw [show placeErr 4 = "Unable to place group of size 4 within team capacities" from rfl]
    rfl
  · rw [c2Enr, c2Groups]
    intro g hg
    fin_cases hg <;> decide

/-- Witness for the amended C2 on the two-player run. -/
theorem generateGame_partition_witness :
    (generateGame sCourse sPlayers sSt (fun _ => 0) = .ok sResult)
    ∧ ((sResult.teams.map (·.players)).flatten).Perm
        (sPlayers.map (computePlayerCH sCourse))
    ∧ ((sResult.teams.map (·.players.length) : List ℕ) : Multiset ℕ)
        = ((determineTeamSizes sPlayers.length : List ℕ) : Multiset ℕ)
    ∧ ∀ g ∈ formGroups (sPlayers.map (computePlayerCH sCourse)),
        ∃ t ∈ sResult.teams, ∀ m ∈ g.members, m ∈ t.players :=
  ⟨sRun,
    (generateGame_partition sCourse sPlayers sSt (fun _ => 0) sResult sRun).1,
    (generateGame_partition sCourse sPlayers sSt (fun _ => 0) sResult sRun).2.1,
    (generateGame_partition sCourse sPlayers sSt (fun _ => 0) sResult sRun).2.2⟩

/-! ### Final team order, renumbering and team handicaps (C8) -/

/-- The comparator as the claim states it. -/
theorem teamsLE_iff (a b : Team) :
    teamsLE a b = true
      ↔ (a.players.length < b.players.length
          ∨ (a.players.length = b.players.length ∧ a.teamHandicap ≤ b.teamHandicap)) := by
  by_cases h : a.players.length = b.players.length
  · simp only [teamsLE, if_pos h, decide_eq_true_eq]
    constructor
    · intro h2
      exact Or.inr ⟨h, h2⟩
    · intro h2
      rcases h2 with h2 | ⟨-, h2⟩
      · omega
      · exact h2
  · simp only [teamsLE, if_neg h, decide_eq_true_eq]
    constructor
    · intro h2
      exact Or.inl h2
    · intro h2
      rcases h2 with h2 | ⟨h2, -⟩
      · exact h2
      · exact absurd h2 h

/-- The team comparator is total. -/
theorem teamsLE_total (a b : Team) : teamsLE a b = true ∨ teamsLE b a = true := by
  rcases Nat.lt_trichotomy a.players.length b.players.length with h | h | h
  · exact Or.inl ((teamsLE_iff a b).mpr (Or.inl h))
  · rcases le_total a.teamHandicap b.teamHandicap with h2 | h2
    · exact Or.inl ((teamsLE_iff a b).mpr (Or.inr ⟨h, h2⟩))
    · exact Or.inr ((teamsLE_iff b a).mpr (Or.inr ⟨h.symm, h2⟩))
  · exact Or.inr ((teamsLE_iff b a).mpr (Or.inl h))

/-- The team comparator is transitive. -/
theorem teamsLE_trans (a b c : Team) (h1 : teamsLE a b = true) (h2 : teamsLE b c = true) :
    teamsLE a c = true := by
  rw [teamsLE_iff] at h1 h2 ⊢
  rcases h1 with h1 | ⟨h1e, h1q⟩ <;> rcases h2 with h2 | ⟨h2e, h2q⟩
  · exact Or.inl (by omega)
  · exact Or.inl (by omega)
  · exact Or.inl (by omega)
  · exact Or.inr ⟨h1e.trans h2e, le_trans h1q h2q⟩

/-- Claim C8: the output teams are sorted ascending by member count with
ties broken by ascending team handicap, renumbered `1..k` in that order,
and every team's handicap is the sum of its members' course
handicaps. -/
theorem generateGame_team_order (course : Course) (players : List Player)
    (st : GameSettings) (amb : RandSrc) (r : GameResult)
    (h : generateGame course players st amb = .ok r) :
    List.Pairwise (fun a b => a.players.length < b.players.length
      ∨ (a.players.length = b.players.length ∧ a.teamHandicap ≤ b.teamHandicap)) r.teams
    ∧ r.teams.map (·.id) = List.range' 1 r.teams.length
    ∧ ∀ t ∈ r.teams, t.teamHandicap = sumCH t.players := by
  obtain ⟨tf, hpl, rfl⟩ := generateGame_ok_decomp h
  have hth : (finishGame course (players.map (computePlayerCH course)) st tf).teams
      = mapIdxFrom (fun idx t => (⟨idx + 1, t.players, t.teamHandicap⟩ : Team)) 0
          (sortByLE teamsLE (tf.map (fun t => ⟨t.id, t.players, sumCH t.players⟩))) := by
    simp only [finishGame]
  refine ⟨?_, ?_, ?_⟩
  · have hsorted := sortByLE_sorted teamsLE teamsLE_total teamsLE_trans
      (tf.map (fun t => (⟨t.id, t.players, sumCH t.players⟩ : Team)))
    have hR : List.Pairwise (fun a b : Team => a.players.length < b.players.length
        ∨ (a.players.length = b.players.length ∧ a.teamHandicap ≤ b.teamHandicap))
        (sortByLE teamsLE (tf.map (fun t => (⟨t.id, t.players, sumCH t.players⟩ : Team)))) :=
      hsorted.imp (fun hab => (teamsLE_iff _ _).mp hab)
    rw [hth]
    have hproj := mapIdxFrom_ren_proj 0
      (sortByLE teamsLE (tf.map (fun t => (⟨t.id, t.players, sumCH t.players⟩ : Team))))
    have hp1 : List.Pairwise (fun a b : List PlayerWithCH × ℤ =>
        a.1.length < b.1.length ∨ (a.1.length = b.1.length ∧ a.2 ≤ b.2))
        ((mapIdxFrom (fun idx t => (⟨idx + 1, t.players, t.teamHandicap⟩ : Team)) 0
          (sortByLE teamsLE
            (tf.map (fun t => (⟨t.id, t.players, sumCH t.players⟩ : Team))))).map
          (fun t => (t.players, t.teamHandicap))) := by
      rw [hproj]
      exact (List.pairwise_map).mpr hR
    exact (List.pairwise_map).mp hp1
  · rw [hth, mapIdxFrom_ren_ids]
    congr 1
    rw [mapIdxFrom_length]
  · intro t ht
    rw [hth] at ht
    have hproj := mapIdxFrom_ren_proj 0
      (sortByLE teamsLE (tf.map (fun t => (⟨t.id, t.players, sumCH t.players⟩ : Team))))
    have hmem : (t.players, t.teamHandicap)
        ∈ (sortByLE teamsLE (tf.map (fun t => (⟨t.id, t.players, sumCH t.players⟩ : Team)))).map
            (fun t => (t.players, t.teamHandicap)) := by
      rw [← hproj]
      exact List.mem_map.mpr ⟨t, ht, rfl⟩
    rcases List.mem_map.mp hmem with ⟨t1, ht1, hpeq⟩
    have ht1H : t1 ∈ tf.map (fun t => (⟨t.id, t.players, sumCH t.players⟩ : Team)) :=
      (sortByLE_perm teamsLE _).mem_iff.mp ht1
    rcases List.mem_map.mp ht1H with ⟨t0, _, rfl⟩
    have hpl2 : t.players = t0.players := by
      have := congrArg Prod.fst hpeq
      simpa using this.symm
    have hth2 : t.teamHandicap = sumCH t0.players := by
      have := congrArg Prod.snd hpeq
      simpa using this.symm
    rw [hth2, hpl2]

/-- Witness for C8 on the two-player run. -/
theorem generateGame_team_order_witness :
    (generateGame sCourse sPlayers sSt (fun _ => 0) = .ok sResult)
    ∧ List.Pairwise (fun a b => a.players.length < b.players.length
        ∨ (a.players.length = b.players.length ∧ a.teamHandicap ≤ b.teamHandicap))
        sResult.teams
    ∧ sResult.teams.map (·.id) = List.range' 1 sResult.teams.length
    ∧ ∀ t ∈ sResult.teams, t.teamHandicap = sumCH t.players :=
  ⟨sRun,
    (generateGame_team_order sCourse sPlayers sSt (fun _ => 0) sResult sRun).1,
    (generateGame_team_order sCourse sPlayers sSt (fun _ => 0) sResult sRun).2.1,
    (generateGame_team_order sCourse sPlayers sSt (fun _ => 0) sResult sRun).2.2⟩

/-! ### Payout place count (C9) -/

/-- Successful balanced placement preserves the number of teams. -/
theorem placeBalanced_ok_length :
    ∀ (gs : List Group) (teams : List Team) (remaining : List ℕ) (tf : List Team),
      placeBalanced gs teams remaining = .ok tf → tf.length = teams.length
  | [], teams, remaining, tf, h => by
    simp only [placeBalanced, Except.ok.injEq] at h
    rw [← h]
  | g :: gs, teams, remaining, tf, h => by
    simp only [placeBalanced] at h
    split at h
    · have h2 := placeBalanced_ok_length gs _ _ tf h
      rwa [pushMembers_length] at h2
    · simp at h

/-- Successful randomized placement preserves the number of teams. -/
theorem placeRandom_ok_length (s : RandSrc) :
    ∀ (gs : List Group) (teams : List Team) (remaining : List ℕ) (ix : ℕ)
      (tf : List Team),
      placeRandom s gs teams remaining ix = .ok tf → tf.length = teams.length
  | [], teams, remaining, ix, tf, h => by
    simp only [placeRandom, Except.ok.injEq] at h
    rw [← h]
  | g :: gs, teams, remaining, ix, tf, h => by
    simp only [placeRandom] at h
    split at h
    · have h2 := placeRandom_ok_length s gs _ _ _ tf h
      rwa [pushMembers_length] at h2
    · simp at h

/-- Claim C9: the payout list of a returned result has
`clamp(paidPlaces, 1, numberOfTeams)` entries — with `paidPlaces`
defaulting to 3 when unset — and its places run consecutively from 1. -/
theorem generateGame_payout_places (course : Course) (players : List Player)
    (st : GameSettings) (amb : RandSrc) (r : GameResult)
    (h : generateGame course players st amb = .ok r) :
    r.payouts.length = (max 1 (min (st.paidPlaces.getD 3) (r.teams.length : ℤ))).toNat
    ∧ r.payouts.map (·.1) = List.range' 1 r.payouts.length := by
  obtain ⟨tf, hpl, rfl⟩ := generateGame_ok_decomp h
  have htflen : 1 ≤ tf.length := by
    have hne := determineTeamSizes_ne_nil (players.map (computePlayerCH course)).length
    have hpos : 0 < (determineTeamSizes (players.map (computePlayerCH course)).length).length :=
      List.length_pos.mpr hne
    rcases placedTeams_ok_decomp hpl with ⟨gs2, -, hb | ⟨s, ix, hr⟩⟩
    · rw [placeBalanced_ok_length _ _ _ _ hb, mapIdxFrom_length]
      exact hpos
    · rw [placeRandom_ok_length s _ _ _ _ _ hr, mapIdxFrom_length]
      exact hpos
  have hteams : (finishGame course (players.map (computePlayerCH course)) st tf).teams.length
      = tf.length := by
    simp only [finishGame, mapIdxFrom_length, sortByLE_length, List.length_map]
  have hpayeq : (finishGame course (players.map (computePlayerCH course)) st tf).payouts.length
      = (max 1 (min (max 1 (st.paidPlaces.getD 3)) (tf.length : ℤ))).toNat := by
    simp only [finishGame, mapIdxFrom_length, roundPayoutsPrefer10Then5_length,
      List.length_map, basePayoutRatios_length, sortByLE_length]
  refine ⟨?_, ?_⟩
  · rw [hpayeq, hteams]
    omega
  · simp only [finishGame, mapIdxFrom_fst_places, mapIdxFrom_length, Nat.zero_add]

/-- Witness for C9 on the two-player run: one team, default paid places
3, clamped to 1 payout at place 1. -/
theorem generateGame_payout_places_witness :
    (generateGame sCourse sPlayers sSt (fun _ => 0) = .ok sResult)
    ∧ sResult.payouts.length
        = (max 1 (min (sSt.paidPlaces.getD 3) (sResult.teams.length : ℤ))).toNat
    ∧ sResult.payouts.map (·.1) = List.range' 1 sResult.payouts.length :=
  ⟨sRun,
    (generateGame_payout_places sCourse sPlayers sSt (fun _ => 0) sResult sRun).1,
    (generateGame_payout_places sCourse sPlayers sSt (fun _ => 0) sResult sRun).2⟩

/-! ### Payout non-negativity (C10) -/

/-- The second component of a numbered payout pair comes from the
amount list. -/
theorem mapIdxFrom_pair_snd_mem :
    ∀ (k : ℕ) (l : List ℤ) (pa : ℕ × ℤ),
      pa ∈ mapIdxFrom (fun i amt => (i + 1, amt)) k l → pa.2 ∈ l
  | _, [], _, h => by simp [mapIdxFrom] at h
  | k, a :: as, pa, h => by
    simp only [mapIdxFrom, List.mem_cons] at h
    rcases h with rfl | h2
    · exact List.mem_cons_self a as
    · exact List.mem_cons_of_mem a (mapIdxFrom_pair_snd_mem (k + 1) as pa h2)

/-- Counterexample to C10 as stated: with 7 paid places over 7 teams the
geometric taper's remainder share (the last ratio) is negative. -/
theorem basePayoutRatios_taper_negative_cex :
    (basePayoutRatios 7 7).getD 6 0 < 0 := by
  norm_num [basePayoutRatios, taper]

/-- Claim C10 (amended): all ratio-schedule entries are non-negative
when the effective place count is at most 6 (for 7 or more the taper's
last remainder share goes negative), and independently every amount in
the final payout list of a returned result is non-negative, because
every stage of the rounding scheme clamps amounts at 0. -/
theorem generateGame_payouts_nonneg :
    (∀ (p : ℤ) (k : ℕ), max 1 (min p (k : ℤ)) ≤ 6 →
        ∀ x ∈ basePayoutRatios p k, 0 ≤ x)
    ∧ (∀ (course : Course) (players : List Player) (st : GameSettings)
        (amb : RandSrc) (r : GameResult),
        generateGame course players st amb = .ok r →
        ∀ pa ∈ r.payouts, 0 ≤ pa.2) := by
  constructor
  · intro p k h x hx
    have h1 : 1 ≤ max 1 (min p (k : ℤ)) := le_max_left _ _
    simp only [basePayoutRatios] at hx
    split_ifs at hx with e1 e2 e3 e4 e5
    · simp only [List.mem_singleton] at hx
      subst hx
      norm_num
    · simp only [List.mem_cons, List.not_mem_nil, or_false] at hx
      rcases hx with rfl | rfl <;> norm_num
    · simp only [List.mem_cons, List.not_mem_nil, or_false] at hx
      rcases hx with rfl | rfl | rfl <;> norm_num
    · simp only [List.mem_cons, List.not_mem_nil, or_false] at hx
      rcases hx with rfl | rfl | rfl | rfl <;> norm_num
    · simp only [List.mem_cons, List.not_mem_nil, or_false] at hx
      rcases hx with rfl | rfl | rfl | rfl | rfl <;> norm_num
    · have e6 : max 1 (min p (k : ℤ)) = 6 := by omega
      rw [e6] at hx
      norm_num [taper] at hx
      rcases hx with rfl | rfl | rfl | rfl | rfl | rfl <;> norm_num
  · intro course players st amb r h pa hpa
    obtain ⟨tf, hpl, rfl⟩ := generateGame_ok_decomp h
    simp only [finishGame] at hpa
    exact roundPayoutsPrefer10Then5_nonneg _ _ (le_max_left 0 _) pa.2
      (mapIdxFrom_pair_snd_mem 0 _ pa hpa)

/-- Witness for C10: the single ratio for one paid place is 1 ≥ 0, and
the two-player run's only payout amount is 20 ≥ 0. -/
theorem generateGame_payouts_nonneg_witness :
    (0 : ℚ) ≤ 1 ∧ (0 : ℤ) ≤ 20 :=
  ⟨generateGame_payouts_nonneg.1 3 1 (by norm_num) 1 (by norm_num [basePayoutRatios]),
   generateGame_payouts_nonneg.2 sCourse sPlayers sSt (fun _ => 0) sResult sRun (1, 20)
     (by norm_num [sResult])⟩

/-! ### Payout conservation fails in the residual fallback (C1) -/

/-- An unlinked player of the C1 roster (handicap index 0). -/
def b1p (i : String) : Player := ⟨i, "P", none, 0, Tee.white, none⟩

/-- Six unlinked players: entry fees total 9. -/
def b1Players : List Player :=
  [b1p "a", b1p "b", b1p "c", b1p "d", b1p "e", b1p "f"]

/-- Settings: entry fee 1.5, everything else unset (balanced policy,
default 3 paid places). -/
def b1St : GameSettings := ⟨3 / 2, none, none, none, none⟩

/-- The enriched record of a C1 player (course handicap 0). -/
def b1e (i : String) : PlayerWithCH := ⟨b1p i, 0⟩

/-- The singleton group of a C1 player. -/
def b1g (i : String) : Group := ⟨"single:" ++ i, [b1e i], 1, 0⟩

/-- The result of the C1 run: prize pool 9, but payouts `[4, 4]`. -/
def b1Result : GameResult :=
  ⟨sCourse,
    [⟨1, [b1e "a", b1e "c", b1e "e"], 0⟩, ⟨2, [b1e "b", b1e "d", b1e "f"], 0⟩],
    6, 9, 0, [(1, 4), (2, 4)]⟩

/-- Enrichment of the C1 roster. -/
theorem b1Enr : b1Players.map (computePlayerCH sCourse)
    = [b1e "a", b1e "b", b1e "c", b1e "d", b1e "e", b1e "f"] := by
  norm_num [b1Players, b1p, b1e, computePlayerCH, courseHandicapFor, slopeForTee,
    sCourse, orZero, jsRound]

/-- Group formation of the C1 roster: six singleton groups. -/
theorem b1Groups :
    formGroups [b1e "a", b1e "b", b1e "c", b1e "d", b1e "e", b1e "f"]
      = [b1g "a", b1g "b", b1g "c", b1g "d", b1g "e", b1g "f"] := by
  have hab : (("single:" ++ "a" : String) = "single:" ++ "b") = False := by
    simp only [eq_iff_iff, iff_false]; decide
  have hac : (("single:" ++ "a" : String) = "single:" ++ "c") = False := by
    simp only [eq_iff_iff, iff_false]; decide
  have hbc : (("single:" ++ "b" : String) = "single:" ++ "c") = False := by
    simp only [eq_iff_iff, iff_false]; decide
  have had : (("single:" ++ "a" : String) = "single:" ++ "d") = False := by
    simp only [eq_iff_iff, iff_false]; decide
  have hbd : (("single:" ++ "b" : String) = "single:" ++ "d") = False := by
    simp only [eq_iff_iff, iff_false]; decide
  have hcd : (("single:" ++ "c" : String) = "single:" ++ "d") = False := by
    simp only [eq_iff_iff, iff_false]; decide
  have hae : (("single:" ++ "a" : String) = "single:" ++ "e") = False := by
    simp only [eq_iff_iff, iff_false]; decide
  have hbe : (("single:" ++ "b" : String) = "single:" ++ "e") = False := by
    simp only [eq_iff_iff, iff_false]; decide
  have hce : (("single:" ++ "c" : String) = "single:" ++ "e") = False := by
    simp only [eq_iff_iff, iff_false]; decide
  have hde : (("single:" ++ "d" : String) = "single:" ++ "e") = False := by
    simp only [eq_iff_iff, iff_false]; decide
  have haf : (("single:" ++ "a" : String) = "single:" ++ "f") = False := by
    simp only [eq_iff_iff, iff_false]; decide
  have hbf : (("single:" ++ "b" : String) = "single:" ++ "f") = False := by
    simp only [eq_iff_iff, iff_false]; decide
  have hcf : (("single:" ++ "c" : String) = "single:" ++ "f") = False := by
    simp only [eq_iff_iff, iff_false]; decide
  have hdf : (("single:" ++ "d" : String) = "single:" ++ "f") = False := by
    simp only [eq_iff_iff, iff_false]; decide
  have hef : (("single:" ++ "e" : String) = "single:" ++ "f") = False := by
    simp only [eq_iff_iff, iff_false]; decide
  norm_num [formGroups, collectGroups, addToGroups, gidOf, mkGroupsOfEntry,
    sumCH, b1e, b1p, b1g, hab, hac, hbc, had, hbd, hcd, hae, hbe, hce, hde,
    haf, hbf, hcf, hdf, hef]

/-- Adjacent comparator facts for the six singleton groups. -/
theorem b1LE1 : balancedLE (b1g "a") (b1g "b") = true := by decide

/-- Comparator fact `b ≤ c`. -/
theorem b1LE2 : balancedLE (b1g "b") (b1g "c") = true := by decide

/-- Comparator fact `c ≤ d`. -/
theorem b1LE3 : balancedLE (b1g "c") (b1g "d") = true := by decide

/-- Comparator fact `d ≤ e`. -/
theorem b1LE4 : balancedLE (b1g "d") (b1g "e") = true := by decide

/-- Comparator fact `e ≤ f`. -/
theorem b1LE5 : balancedLE (b1g "e") (b1g "f") = true := by decide

/-- The balanced policy keeps the six equal singleton groups in roster
order. -/
theorem b1Sorted :
    sortByLE balancedLE [b1g "a", b1g "b", b1g "c", b1g "d", b1g "e", b1g "f"]
      = [b1g "a", b1g "b", b1g "c", b1g "d", b1g "e", b1g "f"] := by
  simp only [sortByLE, insertLE, b1LE1, b1LE2, b1LE3, b1LE4, b1LE5, if_true]

/-- Best-fit placement of the six singles into the `[3, 3]` plan
alternates the teams. -/
theorem b1Placed :
    placeBalanced [b1g "a", b1g "b", b1g "c", b1g "d", b1g "e", b1g "f"]
      [⟨1, [], 0⟩, ⟨2, [], 0⟩] [3, 3]
      = .ok [⟨1, [b1e "a", b1e "c", b1e "e"], 0⟩, ⟨2, [b1e "b", b1e "d", b1e "f"], 0⟩] := by
  norm_num [placeBalanced, bestFit, bestFitAux, firstFit, pushMembers, b1g]

/-- The C1 run: entry fees give a prize pool of 9, and the rounding
fallback returns payouts `[4, 4]`. -/
theorem b1Run : generateGame sCourse b1Players b1St (fun _ => 0) = .ok b1Result := by
  simp only [generateGame, b1Enr, List.length_cons, List.length_nil, Nat.reduceAdd]
  rw [show determineTeamSizes 6 = [3, 3] from rfl]
  simp only [placedTeams, mapIdxFrom, Nat.reduceAdd, jsTruthy, b1St, Bool.false_eq_true,
    if_false]
  rw [b1Groups, b1Sorted, b1Placed]
  norm_num [finishGame, Except.map, sumCH, b1e, b1p, sortByLE, insertLE, teamsLE,
    mapIdxFrom, Option.getD, jsRound, basePayoutRatios, roundPayoutsPrefer10Then5,
    tryRound, roundEntries, adjustLoop_stop, clampNonInc, clampFrom, b1Result]

/-- Claim C1: refuted — on six players with entry fee 1.5 the prize pool
is 9, both the 10-rounding and 5-rounding attempts reach 10, and the
residual fallback lowers first place to 4 after which the non-increasing
clamp also lowers second place, so the final payouts `[4, 4]` sum to 8,
not to the prize pool. -/
theorem generateGame_payout_sum_bug :
    generateGame sCourse b1Players b1St (fun _ => 0) = .ok b1Result
    ∧ (b1Result.payouts.map (·.2)).sum ≠ b1Result.prizePool := by
  refine ⟨b1Run, ?_⟩
  norm_num [b1Result]

end MembersGame
